import Mathlib

/-!
Verification development for the batch-location resolution core
(`backend/batch_api_working.py`).

The pipeline joins seven columnar snapshot tables (run, run_step,
process_module, process, process_category, process_type_category,
process_type), classifies each run_step by its timestamps, selects a
"current" step per run via a tie-break ladder, and projects one output
record per run.

Shallow embedding conventions:
  * Nullable values (pandas `NaN`/`NaT`/`None`) are `Option` values.
  * A pandas stable sort (`sort_values(kind="stable")`) is modelled by a
    stable insertion sort `sortK` over a per-row key of type `List Int`
    compared lexicographically; `NaN`-last order (`na_position="last"`,
    the pandas default) is encoded in the keys.
  * `drop_duplicates(keep="first")` is modelled by `dedupKF`.
  * External library primitives (pandas date/timedelta parsing, pyarrow
    column reads) are modelled by small executable functions whose doc
    comments state what they model.
-/

namespace BatchCore

/-! ### Lexicographic order on `List Int` sort keys -/

/-- Lexicographic `≤` on integer key lists (components compared left to
right); used to model multi-column ascending sorts. -/
def listLe : List Int → List Int → Bool
  | [], _ => true
  | _ :: _, [] => false
  | a :: as, b :: bs => if a < b then true else if b < a then false else listLe as bs

theorem listLe_refl : ∀ l : List Int, listLe l l = true := by
  intro l
  induction l with
  | nil => rfl
  | cons a as ih => simp [listLe, ih]

theorem listLe_total : ∀ a b : List Int, listLe a b = true ∨ listLe b a = true := by
  intro a
  induction a with
  | nil => intro b; left; rfl
  | cons x xs ih =>
    intro b
    cases b with
    | nil => right; rfl
    | cons y ys =>
      by_cases hxy : x < y
      · left; simp [listLe, hxy]
      · by_cases hyx : y < x
        · right; simp [listLe, hyx, hxy]
        · have ih' := ih ys
          rcases ih' with h | h
          · left; simp [listLe, hxy, hyx, h]
          · right; simp [listLe, hxy, hyx, h]

theorem listLe_trans : ∀ a b c : List Int,
    listLe a b = true → listLe b c = true → listLe a c = true := by
  intro a
  induction a with
  | nil => intro b c _ _; rfl
  | cons x xs ih =>
    intro b c hab hbc
    cases b with
    | nil => simp [listLe] at hab
    | cons y ys =>
      cases c with
      | nil => simp [listLe] at hbc
      | cons z zs =>
        by_cases hxy : x < y
        · -- x < y and y ≤ z (in the head sense) gives x < z
          by_cases hyz : y < z
          · have : x < z := lt_trans hxy hyz
            simp [listLe, this]
          · by_cases hzy : z < y
            · simp [listLe, hyz, hzy] at hbc
            · have hyz' : y = z := le_antisymm (not_lt.mp hzy) (not_lt.mp hyz)
              subst hyz'
              simp [listLe, hxy]
        · by_cases hyx : y < x
          · simp [listLe, hxy, hyx] at hab
          · have hxy' : x = y := le_antisymm (not_lt.mp hyx) (not_lt.mp hxy)
            subst hxy'
            simp only [listLe, lt_irrefl, if_false] at hab
            by_cases hyz : x < z
            · simp [listLe, hyz]
            · by_cases hzy : z < x
              · simp [listLe, hyz, hzy] at hbc
              · simp only [listLe, hyz, hzy, if_false] at hbc ⊢
                exact ih ys zs hab hbc

/-! ### Stable sort by a key (models `sort_values(kind="stable")`) -/

variable {α : Type} {β : Type}

/-- Insert `x` before the first element whose key is `≥ key x`; elements
with strictly smaller keys are passed over.  Combined with `sortK` this
yields a stable sort: an original-earlier element lands before
equal-keyed original-later ones. -/
def insertK (key : α → List Int) (x : α) : List α → List α
  | [] => [x]
  | y :: ys => if listLe (key x) (key y) then x :: y :: ys else y :: insertK key x ys

/-- Stable ascending sort by `key`, modelling pandas
`sort_values(..., kind="stable")` with `na_position="last"` encoded in
the keys. -/
def sortK (key : α → List Int) : List α → List α
  | [] => []
  | x :: xs => insertK key x (sortK key xs)

theorem insertK_perm (key : α → List Int) (x : α) :
    ∀ l : List α, (insertK key x l).Perm (x :: l) := by
  intro l
  induction l with
  | nil => simp [insertK]
  | cons y ys ih =>
    by_cases h : listLe (key x) (key y) = true
    · simp [insertK, h]
    · simp only [insertK, h, if_false]
      exact (List.Perm.cons y ih).trans (List.Perm.swap x y ys)

theorem sortK_perm (key : α → List Int) : ∀ l : List α, (sortK key l).Perm l := by
  intro l
  induction l with
  | nil => simp [sortK]
  | cons x xs ih =>
    exact (insertK_perm key x _).trans (List.Perm.cons x ih)

theorem insertK_pairwise (key : α → List Int) (x : α) (l : List α)
    (hl : l.Pairwise (fun a b => listLe (key a) (key b) = true)) :
    (insertK key x l).Pairwise (fun a b => listLe (key a) (key b) = true) := by
  induction l with
  | nil => simp [insertK]
  | cons y ys ih =>
    rcases List.pairwise_cons.mp hl with ⟨hy, hys⟩
    by_cases h : listLe (key x) (key y) = true
    · simp only [insertK, h, if_true]
      refine List.pairwise_cons.mpr ⟨?_, hl⟩
      intro z hz
      rcases List.mem_cons.mp hz with hz | hz
      · subst hz; exact h
      · exact listLe_trans _ _ _ h (hy z hz)
    · simp only [insertK, h, if_false]
      refine List.pairwise_cons.mpr ⟨?_, ih hys⟩
      intro z hz
      have hz' := (insertK_perm key x ys).mem_iff.mp hz
      rcases List.mem_cons.mp hz' with hz' | hz'
      · rw [hz']
        rcases listLe_total (key x) (key y) with hc | hc
        · exact absurd hc h
        · exact hc
      · exact hy z hz'

theorem sortK_pairwise (key : α → List Int) :
    ∀ l : List α, (sortK key l).Pairwise (fun a b => listLe (key a) (key b) = true) := by
  intro l
  induction l with
  | nil => simp [sortK]
  | cons x xs ih => exact insertK_pairwise key x _ ih

/-! ### Keep-first deduplication (models `drop_duplicates(keep="first")`) -/

/-- Worker of `dedupKF`: drop every row whose key was already seen. -/
def dedupSeen [DecidableEq β] (key : α → β) : List α → List β → List α
  | [], _ => []
  | x :: l, seen =>
    if key x ∈ seen then dedupSeen key l seen
    else x :: dedupSeen key l (key x :: seen)

/-- Keep, in order, the first row carrying each distinct key; models
pandas `drop_duplicates(subset=key, keep="first")` (with `key = id` it
models full-row `drop_duplicates()`). -/
def dedupKF [DecidableEq β] (key : α → β) (l : List α) : List α :=
  dedupSeen key l []

theorem dedupSeen_congr [DecidableEq β] (key : α → β) :
    ∀ (l : List α) (s₁ s₂ : List β), (∀ b, b ∈ s₁ ↔ b ∈ s₂) →
      dedupSeen key l s₁ = dedupSeen key l s₂ := by
  intro l
  induction l with
  | nil => intro _ _ _; rfl
  | cons x l ih =>
    intro s₁ s₂ hset
    by_cases hx : key x ∈ s₁
    · rw [dedupSeen, if_pos hx, dedupSeen, if_pos ((hset _).mp hx)]
      exact ih s₁ s₂ hset
    · rw [dedupSeen, if_neg hx, dedupSeen, if_neg (fun h => hx ((hset _).mpr h))]
      refine congrArg _ (ih _ _ ?_)
      intro b
      simp only [List.mem_cons]
      exact or_congr Iff.rfl (hset b)

theorem dedupSeen_filter [DecidableEq β] (key : α → β) :
    ∀ (l : List α) (s : β) (seen : List β),
      dedupSeen key l (s :: seen) =
        dedupSeen key (l.filter (fun y => decide (key y ≠ s))) seen := by
  intro l
  induction l with
  | nil => intro _ _; rfl
  | cons y l ih =>
    intro s seen
    by_cases hys : key y = s
    · rw [dedupSeen, if_pos (by rw [hys]; exact List.mem_cons_self _ _)]
      rw [List.filter_cons, if_neg (by simp [hys])]
      exact ih s seen
    · rw [List.filter_cons, if_pos (by simpa using hys)]
      by_cases hy : key y ∈ seen
      · rw [dedupSeen, if_pos (List.mem_cons_of_mem _ hy), dedupSeen, if_pos hy]
        exact ih s seen
      · rw [dedupSeen, if_neg (by simp [hys, hy]), dedupSeen, if_neg hy]
        refine congrArg _ ?_
        rw [dedupSeen_congr key l (key y :: s :: seen) (s :: key y :: seen)
          (by intro b; simp only [List.mem_cons]; tauto)]
        exact ih s (key y :: seen)

theorem dedupKF_nil [DecidableEq β] (key : α → β) : dedupKF key ([] : List α) = [] := rfl

/-- The keep-first dedup in filtering form: keep the head, dedup the
tail with the head's key-class removed. -/
theorem dedupKF_eq [DecidableEq β] (key : α → β) (x : α) (l : List α) :
    dedupKF key (x :: l) = x :: dedupKF key (l.filter (fun y => decide (key y ≠ key x))) := by
  rw [dedupKF, dedupSeen, if_neg (by simp)]
  rw [dedupSeen_filter key l (key x) []]
  rfl

theorem dedupKF_subset [DecidableEq β] (key : α → β) :
    ∀ l : List α, ∀ a ∈ dedupKF key l, a ∈ l
  | [] => by intro a ha; simp [dedupKF_nil] at ha
  | x :: l => by
    intro a ha
    rw [dedupKF_eq] at ha
    rcases List.mem_cons.mp ha with ha | ha
    · rw [ha]; exact List.mem_cons_self _ _
    · exact List.mem_cons_of_mem _
        (List.mem_of_mem_filter (dedupKF_subset key _ a ha))
termination_by l => l.length
decreasing_by
  simp only [List.length_cons]
  exact Nat.lt_succ_of_le (List.length_filter_le _ _)

theorem dedupKF_keys_nodup [DecidableEq β] (key : α → β) :
    ∀ l : List α, ((dedupKF key l).map key).Nodup
  | [] => by simp [dedupKF_nil]
  | x :: l => by
    rw [dedupKF_eq]
    simp only [List.map_cons, List.nodup_cons]
    refine ⟨?_, dedupKF_keys_nodup key _⟩
    intro hmem
    rcases List.mem_map.mp hmem with ⟨a, ha, hk⟩
    have ha' := dedupKF_subset key _ a ha
    have := List.of_mem_filter ha'
    simp only [decide_eq_true_eq] at this
    exact this hk
termination_by l => l.length
decreasing_by
  simp only [List.length_cons]
  exact Nat.lt_succ_of_le (List.length_filter_le _ _)

theorem dedupKF_key_mem [DecidableEq β] (key : α → β) :
    ∀ (l : List α) (k : β), k ∈ (dedupKF key l).map key ↔ k ∈ l.map key
  | [] => by intro k; simp [dedupKF_nil]
  | x :: l => by
    intro k
    rw [dedupKF_eq]
    simp only [List.map_cons, List.mem_cons]
    constructor
    · rintro (h | h)
      · exact Or.inl h
      · rcases List.mem_map.mp ((dedupKF_key_mem key _ k).mp h) with ⟨a, ha, hk⟩
        exact Or.inr (List.mem_map.mpr ⟨a, List.mem_of_mem_filter ha, hk⟩)
    · rintro (h | h)
      · exact Or.inl h
      · rcases List.mem_map.mp h with ⟨a, ha, hk⟩
        by_cases hax : key a = key x
        · exact Or.inl (hk ▸ hax)
        · refine Or.inr ((dedupKF_key_mem key _ k).mpr (List.mem_map.mpr ⟨a, ?_, hk⟩))
          exact List.mem_filter.mpr ⟨ha, by simpa using hax⟩
termination_by l => l.length
decreasing_by
  all_goals
    simp only [List.length_cons]
    exact Nat.lt_succ_of_le (List.length_filter_le _ _)

/-! ### `find?` through insertion / sorting / dedup -/

theorem find?_insertK_of_neg (key : α → List Int) (P : α → Bool) (x : α)
    (hx : P x = false) :
    ∀ s : List α, (insertK key x s).find? P = s.find? P := by
  intro s
  induction s with
  | nil => simp [insertK, List.find?, hx]
  | cons y ys ih =>
    by_cases h : listLe (key x) (key y) = true
    · simp [insertK, h, List.find?, hx]
    · simp only [insertK, h, if_false]
      cases hPy : P y with
      | true => simp [List.find?, hPy]
      | false => simpa [List.find?, hPy] using ih

theorem find?_insertK_of_min (key : α → List Int) (P : α → Bool) (x : α)
    (hx : P x = true) (hmin : ∀ y, P y = true → listLe (key x) (key y) = true) :
    ∀ s : List α, (insertK key x s).find? P = some x := by
  intro s
  induction s with
  | nil => simp [insertK, List.find?, hx]
  | cons y ys ih =>
    by_cases h : listLe (key x) (key y) = true
    · simp [insertK, h, List.find?, hx]
    · simp only [insertK, h, if_false]
      have hPy : P y = false := by
        cases hPy : P y with
        | true => exact absurd (hmin y hPy) h
        | false => rfl
      simpa [List.find?, hPy] using ih

/-- Stability through the sort, in the form needed here: if every row
satisfying `P` carries one and the same key, the sort does not change
which `P`-row comes first. -/
theorem find?_sortK_of_const (key : α → List Int) (P : α → Bool) (c : List Int)
    (hc : ∀ a, P a = true → key a = c) :
    ∀ l : List α, (sortK key l).find? P = l.find? P := by
  intro l
  induction l with
  | nil => simp [sortK]
  | cons x xs ih =>
    cases hPx : P x with
    | true =>
      have hkx : key x = c := hc x hPx
      have := find?_insertK_of_min key P x hPx
        (fun y hy => by rw [hkx, hc y hy]; exact listLe_refl c) (sortK key xs)
      simp only [sortK, this, List.find?, hPx]
    | false =>
      simp only [sortK, find?_insertK_of_neg key P x hPx, ih, List.find?, hPx]

theorem find?_filter_of_preserve (P pred : α → Bool)
    (h : ∀ a, P a = true → pred a = true) :
    ∀ l : List α, (l.filter pred).find? P = l.find? P := by
  intro l
  induction l with
  | nil => simp
  | cons y ys ih =>
    cases hpy : pred y with
    | true =>
      simp only [List.filter_cons, hpy, if_true]
      cases hPy : P y with
      | true => simp [List.find?, hPy]
      | false => simpa [List.find?, hPy] using ih
    | false =>
      have hPy : P y = false := by
        cases hP : P y with
        | true => rw [h y hP] at hpy; exact hpy
        | false => rfl
      simp [List.filter_cons, hpy, List.find?, hPy, ih]

theorem find?_dedupKF [DecidableEq β] (keyD : α → β) (P : α → Bool)
    (hP : ∀ a b, keyD a = keyD b → P a = P b) :
    ∀ l : List α, (dedupKF keyD l).find? P = l.find? P
  | [] => by simp [dedupKF_nil]
  | x :: l => by
    rw [dedupKF_eq]
    cases hPx : P x with
    | true => simp [List.find?, hPx]
    | false =>
      simp only [List.find?, hPx]
      rw [find?_dedupKF keyD P hP _]
      exact find?_filter_of_preserve P _ (fun a ha => by
        by_cases hax : keyD a = keyD x
        · rw [hP a x hax] at ha; rw [ha] at hPx; exact absurd hPx (by simp)
        · simpa using hax) l
termination_by l => l.length
decreasing_by
  simp only [List.length_cons]
  exact Nat.lt_succ_of_le (List.length_filter_le _ _)

/-- Inserting a `P`-row `x` whose key lies strictly above every `Q`-row
key and at-or-below every other `P`-row key: the first `P`-row of the
result is the first `Q`-row of `s` when one exists, else `x` itself. -/
theorem find?_insertK_between (key : α → List Int) (P Q : α → Bool) (x : α) :
    ∀ s : List α,
      s.Pairwise (fun a b => listLe (key a) (key b) = true) →
      P x = true → Q x = false →
      (∀ z, Q z = true → P z = true) →
      (∀ z, Q z = true → listLe (key x) (key z) = false) →
      (∀ z, P z = true → Q z = false → listLe (key x) (key z) = true) →
      (insertK key x s).find? P = some ((s.find? Q).getD x) := by
  intro s
  induction s with
  | nil =>
    intro _ hPx _ _ _ _
    simp [insertK, List.find?, hPx]
  | cons y ys ih =>
    intro hpw hPx hQx hQP hql hpq
    rcases List.pairwise_cons.mp hpw with ⟨hy, hys⟩
    by_cases h : listLe (key x) (key y) = true
    · -- x stops here: no Q-row can occur in y :: ys
      have hQy : Q y = false := by
        cases hq : Q y with
        | true => rw [hql y hq] at h; exact absurd h (by simp)
        | false => rfl
      have hQys : ys.find? Q = none := by
        rw [List.find?_eq_none]
        intro z hz hq
        have h1 := hy z hz
        have h2 := hql z hq
        rw [listLe_trans _ _ _ h h1] at h2
        exact absurd h2 (by simp)
      simp [insertK, h, List.find?, hPx, hQy, hQys]
    · simp only [insertK, h, if_false]
      cases hPy : P y with
      | true =>
        have hQy : Q y = true := by
          cases hq : Q y with
          | true => rfl
          | false => exact absurd (hpq y hPy hq) h
        simp [List.find?, hPy, hQy]
      | false =>
        have hQy : Q y = false := by
          cases hq : Q y with
          | true => rw [hQP y hq] at hPy; exact absurd hPy (by simp)
          | false => rfl
        simp only [List.find?, hPy, hQy]
        exact ih hys hPx hQx hQP hql hpq

/-! ### Last element of a sorted list is key-maximal -/

theorem getLast?_mem : ∀ (l : List α) (a : α), l.getLast? = some a → a ∈ l := by
  intro l
  induction l with
  | nil => intro a h; simp at h
  | cons x xs ih =>
    intro a h
    cases xs with
    | nil =>
      simp only [List.getLast?_singleton, Option.some.injEq] at h
      rw [h]; exact List.mem_cons_self _ _
    | cons y ys =>
      rw [List.getLast?_cons_cons] at h
      exact List.mem_cons_of_mem _ (ih a h)

theorem pairwise_le_getLast (key : α → List Int) :
    ∀ (s : List α) (r : α),
      s.Pairwise (fun a b => listLe (key a) (key b) = true) →
      s.getLast? = some r → ∀ x ∈ s, listLe (key x) (key r) = true := by
  intro s
  induction s with
  | nil => intro r _ hr; simp at hr
  | cons z zs ih =>
    intro r hpw hr x hx
    rcases List.pairwise_cons.mp hpw with ⟨hz, hzs⟩
    cases zs with
    | nil =>
      simp only [List.getLast?_singleton, Option.some.injEq] at hr
      rcases List.mem_cons.mp hx with hx' | hx'
      · rw [hx', ← hr]; exact listLe_refl _
      · simp at hx'
    | cons w ws =>
      rw [List.getLast?_cons_cons] at hr
      rcases List.mem_cons.mp hx with hx' | hx'
      · rw [hx']
        exact hz r (getLast?_mem _ r hr)
      · exact ih r hzs hr x hx'

theorem sortK_getLast?_max (key : α → List Int) (l : List α) (hne : l ≠ []) :
    ∃ r, (sortK key l).getLast? = some r ∧ r ∈ l ∧
      ∀ x ∈ l, listLe (key x) (key r) = true := by
  have hperm := sortK_perm key l
  have hnes : sortK key l ≠ [] := by
    intro h
    exact hne (List.Perm.eq_nil (h ▸ hperm.symm))
  obtain ⟨r, hr⟩ := Option.isSome_iff_exists.mp (Option.ne_none_iff_isSome.mp
    (mt List.getLast?_eq_none_iff.mp hnes))
  refine ⟨r, hr, hperm.mem_iff.mp (getLast?_mem _ r hr), ?_⟩
  intro x hx
  exact pairwise_le_getLast key _ r (sortK_pairwise key l) hr x (hperm.mem_iff.mpr hx)

/-! ### Maximum of an integer list, first-position argmax (models `idxmax`) -/

/-- Maximum of a list of integers, `none` on the empty list. -/
def listMax : List Int → Option Int
  | [] => none
  | x :: l =>
    match listMax l with
    | none => some x
    | some m => some (max x m)

theorem listMax_spec : ∀ (l : List Int) (m : Int), listMax l = some m →
    m ∈ l ∧ ∀ x ∈ l, x ≤ m := by
  intro l
  induction l with
  | nil => intro m h; simp [listMax] at h
  | cons x xs ih =>
    intro m h
    cases hxs : listMax xs with
    | none =>
      rw [listMax, hxs] at h
      cases xs with
      | nil =>
        simp only [Option.some.injEq] at h
        refine ⟨by rw [h]; exact List.mem_cons_self _ _, ?_⟩
        intro z hz
        rcases List.mem_cons.mp hz with hz | hz
        · rw [hz, h]
        · simp at hz
      | cons y ys => simp [listMax] at hxs; cases hm : listMax ys <;> simp [hm] at hxs
    | some m' =>
      rw [listMax, hxs] at h
      simp only [Option.some.injEq] at h
      rcases ih m' hxs with ⟨hmem, hub⟩
      constructor
      · rcases max_choice x m' with hc | hc
        · rw [← h, hc] at *; exact List.mem_cons_self _ _
        · rw [← h, hc]; exact List.mem_cons_of_mem _ hmem
      · intro z hz
        rcases List.mem_cons.mp hz with hz | hz
        · rw [hz, ← h]; exact le_max_left _ _
        · rw [← h]; exact le_trans (hub z hz) (le_max_right _ _)

theorem listMax_isSome : ∀ l : List Int, l ≠ [] → (listMax l).isSome = true := by
  intro l hl
  cases l with
  | nil => exact absurd rfl hl
  | cons x xs =>
    rw [listMax]
    cases listMax xs <;> simp

/-- First row whose value under `f` equals the maximum of the non-null
values of `f`; models `df.loc[[series.idxmax()]]` (pandas `idxmax`
skips nulls and returns the first position attaining the maximum). -/
def argmaxFirst (f : α → Option Int) (g : List α) : Option α :=
  match listMax (g.filterMap f) with
  | none => none
  | some m => g.find? (fun r => decide (f r = some m))

theorem find?_eq_some_split (P : α → Bool) :
    ∀ (l : List α) (a : α), l.find? P = some a →
      ∃ l₁ l₂, l = l₁ ++ a :: l₂ ∧ (∀ x ∈ l₁, P x = false) ∧ P a = true := by
  intro l
  induction l with
  | nil => intro a h; simp at h
  | cons y ys ih =>
    intro a h
    cases hPy : P y with
    | true =>
      rw [List.find?, hPy] at h
      simp only [Option.some.injEq] at h
      exact ⟨[], ys, by rw [h]; rfl, by simp, by rw [← h]; exact hPy⟩
    | false =>
      rw [List.find?, hPy] at h
      rcases ih a h with ⟨l₁, l₂, heq, hl₁, hPa⟩
      refine ⟨y :: l₁, l₂, by rw [heq]; rfl, ?_, hPa⟩
      intro x hx
      rcases List.mem_cons.mp hx with hx | hx
      · rw [hx]; exact hPy
      · exact hl₁ x hx

theorem argmaxFirst_spec (f : α → Option Int) (g : List α)
    (hne : g.any (fun r => (f r).isSome) = true) :
    ∃ r m l₁ l₂, argmaxFirst f g = some r ∧ g = l₁ ++ r :: l₂ ∧
      f r = some m ∧ (∀ x ∈ g, ∀ v, f x = some v → v ≤ m) ∧
      (∀ x ∈ l₁, f x ≠ some m) := by
  have hfm : g.filterMap f ≠ [] := by
    rcases List.any_eq_true.mp hne with ⟨r, hr, hsome⟩
    obtain ⟨v, hv⟩ := Option.isSome_iff_exists.mp hsome
    intro hnil
    have : v ∈ g.filterMap f := List.mem_filterMap.mpr ⟨r, hr, hv⟩
    rw [hnil] at this
    simp at this
  obtain ⟨m, hm⟩ := Option.isSome_iff_exists.mp (listMax_isSome _ hfm)
  rcases listMax_spec _ m hm with ⟨hmem, hub⟩
  rcases List.mem_filterMap.mp hmem with ⟨r0, hr0, hfr0⟩
  have hfind : (g.find? (fun r => decide (f r = some m))).isSome = true := by
    rw [List.find?_isSome]
    exact ⟨r0, hr0, by simp [hfr0]⟩
  obtain ⟨r, hr⟩ := Option.isSome_iff_exists.mp hfind
  rcases find?_eq_some_split _ g r hr with ⟨l₁, l₂, heq, hl₁, hPr⟩
  simp only [decide_eq_true_eq] at hPr
  refine ⟨r, m, l₁, l₂, ?_, heq, hPr, ?_, ?_⟩
  · rw [argmaxFirst, hm]; exact hr
  · intro x hx v hv
    exact hub v (List.mem_filterMap.mpr ⟨x, hx, hv⟩)
  · intro x hx
    have := hl₁ x hx
    simpa using this

/-! ### Timestamp construction (`_combine_dt`)

The date/timedelta parsing primitives of the pandas library are modelled
by small executable parsers over the character list of the string;
`errors="coerce"` is modelled by returning `none` on parse failure. -/

/-- Split a character list at every occurrence of the separator `sep`. -/
def splitOnCh (sep : Char) : List Char → List Char → List (List Char)
  | [], cur => [cur.reverse]
  | c :: cs, cur =>
    if c = sep then cur.reverse :: splitOnCh sep cs []
    else splitOnCh sep cs (c :: cur)

/-- Read a non-empty all-digit character list as a natural number. -/
def digitsToNat : List Char → Option Nat
  | [] => none
  | cs =>
    if cs.all (fun c => c.isDigit) then
      some (cs.foldl (fun acc c => acc * 10 + (c.toNat - 48)) 0)
    else none

/-- Days in a month of the proleptic Gregorian calendar. -/
def daysInMonth (y m : Nat) : Nat :=
  if m = 2 then
    if y % 4 = 0 ∧ (y % 100 ≠ 0 ∨ y % 400 = 0) then 29 else 28
  else if m = 4 ∨ m = 6 ∨ m = 9 ∨ m = 11 then 30
  else 31

/-- Modelled library primitive: `pd.to_datetime(..., errors="coerce")`
on an ISO `YYYY-MM-DD` date string; invalid dates coerce to `none`. -/
def parseDate (s : String) : Option (Nat × Nat × Nat) :=
  match splitOnCh '-' s.data [] with
  | [ys, ms, ds] =>
    match digitsToNat ys, digitsToNat ms, digitsToNat ds with
    | some y, some m, some d =>
      if 1 ≤ m ∧ m ≤ 12 ∧ 1 ≤ d ∧ d ≤ daysInMonth y m then some (y, m, d)
      else none
    | _, _, _ => none
  | _ => none

/-- Injective encoding of a calendar date as a number of seconds, so
combined instants compare correctly. -/
def dateEnc (ymd : Nat × Nat × Nat) : Int :=
  (((ymd.1 * 12 + (ymd.2.1 - 1)) * 31 + (ymd.2.2 - 1)) : Int) * 86400

/-- Modelled library primitive: `pd.to_timedelta(..., errors="coerce")`
on a clock string; accepts `h:m:s` and `h:m` digit groups, coercing
anything else (including the empty string) to `none`. -/
def parseClock (cs : List Char) : Option Int :=
  match splitOnCh ':' cs [] with
  | [hs, ms, ss] =>
    match digitsToNat hs, digitsToNat ms, digitsToNat ss with
    | some h, some m, some s => some ((h * 3600 + m * 60 + s : Nat) : Int)
    | _, _, _ => none
  | [hs, ms] =>
    match digitsToNat hs, digitsToNat ms with
    | some h, some m => some ((h * 3600 + m * 60 : Nat) : Int)
    | _, _ => none
  | _ => none

/-- `str.replace(r"[^\d:]", "", regex=True)`: strip every character that
is neither a digit nor a colon. -/
def cleanTime (cs : List Char) : List Char :=
  cs.filter (fun c => c.isDigit || c = ':')

/-- Shallow embedding of `_combine_dt` applied to one (date, time) pair:
the date is parsed with coercion to `none`; the time-of-day defaults to
`"00:00:00"` when missing (`fillna`), is stripped of non-digit/non-colon
characters, and parsed as a timedelta with coercion to `none`; the sum
of a `none` date or a `none` timedelta is `none` (`NaT` propagation). -/
def combineDT (date : Option String) (time : Option String) : Option Int :=
  match (date.bind parseDate).map dateEnc,
      parseClock (cleanTime (time.getD "00:00:00").data) with
  | some dv, some tv => some (dv + tv)
  | _, _ => none

/-! ### Step status (three masked assignments over `started_at`/`finished_at`) -/

/-- Shallow embedding of the three masked `status` assignments: starting
from `pd.NA`, rows with `finished_at` present become `"Completed"`, rows
with `started_at` present and `finished_at` absent become
`"In Progress"`, and rows with both absent become `"Not Started"`. -/
def stepStatus (started_at finished_at : Option Int) : Option String :=
  let st0 : Option String := none
  let st1 := if finished_at.isSome then some "Completed" else st0
  let st2 := if started_at.isSome ∧ finished_at = none then some "In Progress" else st1
  let st3 := if started_at = none ∧ finished_at = none then some "Not Started" else st2
  st3

/-- `updated_at`: row-wise maximum of `finished_at` and `started_at`,
skipping nulls (`df[["finished_at","started_at"]].max(axis=1)`). -/
def updatedAt (started_at finished_at : Option Int) : Option Int :=
  match finished_at, started_at with
  | some f, some s => some (max f s)
  | some f, none => some f
  | none, some s => some s
  | none, none => none

/-! ### run_step rows and the current-step resolver -/

/-- Which optional columns the run_step snapshot actually carries
(`"StartDate" in rs.columns` etc. are table-level facts in the source). -/
structure RSSchema where
  hasStartDate : Bool
  hasFinishDate : Bool
  hasSeq : Bool
  hasBatchIdx : Bool
  hasFragIdx : Bool
deriving DecidableEq

/-- One raw run_step row after `pd.to_numeric(..., errors="coerce")` on
the numeric columns; a column absent from the snapshot is reflected by
the corresponding `RSSchema` flag (its values are then never consulted). -/
structure RSRow where
  RunId : Option Int
  ProcessModuleId : Option Int
  Sequence : Option Int
  batchIdx : Option Int
  fragIdx : Option Int
  StartDate : Option String
  StartTime : Option String
  FinishDate : Option String
  FinishTime : Option String
deriving DecidableEq

/-- A run_step row enriched with `started_at`, `finished_at`, `status`
and `updated_at`. -/
structure StepRow where
  RunId : Option Int
  ProcessModuleId : Option Int
  Sequence : Option Int
  batchIdx : Option Int
  fragIdx : Option Int
  started_at : Option Int
  finished_at : Option Int
  status : Option String
  updated_at : Option Int
deriving DecidableEq

/-- Enrich one run_step row: timestamps are combined only when both the
`StartDate` and `FinishDate` columns exist (else both are `NaT`), then
the status masks and `updated_at` are applied. -/
def mkStep (sch : RSSchema) (r : RSRow) : StepRow :=
  let s_at := if sch.hasStartDate && sch.hasFinishDate then combineDT r.StartDate r.StartTime else none
  let f_at := if sch.hasStartDate && sch.hasFinishDate then combineDT r.FinishDate r.FinishTime else none
  { RunId := r.RunId
    ProcessModuleId := r.ProcessModuleId
    Sequence := r.Sequence
    batchIdx := r.batchIdx
    fragIdx := r.fragIdx
    started_at := s_at
    finished_at := f_at
    status := stepStatus s_at f_at
    updated_at := updatedAt s_at f_at }

/-- Ascending sort key for a nullable integer, nulls last
(`na_position="last"`). -/
def optKeyAsc (o : Option Int) : List Int :=
  match o with
  | none => [1, 0]
  | some v => [0, v]

/-- Sort key of the ingestion-ordinal fallback:
`g.sort_values([c for c in ["__batch_index","__fragment_index"] if c in g.columns])`. -/
def ordKey (sch : RSSchema) (r : StepRow) : List Int :=
  (if sch.hasBatchIdx then optKeyAsc r.batchIdx else []) ++
    (if sch.hasFragIdx then optKeyAsc r.fragIdx else [])

/-- Shallow embedding of `_pick_current`: the tie-break ladder selecting
the current step of one run's group of rows. -/
def pickCurrent (sch : RSSchema) (g : List StepRow) : Option StepRow :=
  if g.any (fun r => r.updated_at.isSome) then
    argmaxFirst (fun r => r.updated_at) g
  else if sch.hasBatchIdx || sch.hasFragIdx then
    (sortK (ordKey sch) g).getLast?
  else if sch.hasSeq && g.any (fun r => r.Sequence.isSome) then
    argmaxFirst (fun r => r.Sequence) g
  else
    g.getLast?

/-- The distinct non-null `RunId` keys in ascending order: pandas
`groupby("RunId")` drops null keys and sorts the groups. -/
def runKeys (rows : List StepRow) : List Int :=
  sortK (fun k => [k]) (dedupKF id (rows.filterMap (fun r => r.RunId)))

/-- Shallow embedding of
`rs.groupby("RunId", as_index=False, group_keys=False).apply(_pick_current)`:
one selected row per distinct non-null `RunId`. -/
def currentStep (sch : RSSchema) (rows : List StepRow) : List StepRow :=
  (runKeys rows).filterMap
    (fun k => pickCurrent sch (rows.filter (fun r => decide (r.RunId = some k))))

theorem getLast?_isSome_of_ne_nil : ∀ l : List α, l ≠ [] → ∃ r, l.getLast? = some r := by
  intro l hl
  obtain ⟨r, hr⟩ := Option.isSome_iff_exists.mp (Option.ne_none_iff_isSome.mp
    (mt List.getLast?_eq_none_iff.mp hl))
  exact ⟨r, hr⟩

/-- The resolver always selects a row, and selects it from the group. -/
theorem pickCurrent_isSome_mem (sch : RSSchema) (g : List StepRow) (hne : g ≠ []) :
    ∃ r, pickCurrent sch g = some r ∧ r ∈ g := by
  rw [pickCurrent]
  by_cases h1 : g.any (fun r => r.updated_at.isSome) = true
  · rcases argmaxFirst_spec (fun r => r.updated_at) g h1 with ⟨r, m, l₁, l₂, hpick, heq, _, _, _⟩
    exact ⟨r, by rw [if_pos h1]; exact hpick, by rw [heq]; exact List.mem_append_right _ (List.mem_cons_self _ _)⟩
  · rw [if_neg h1]
    by_cases h2 : (sch.hasBatchIdx || sch.hasFragIdx) = true
    · rcases sortK_getLast?_max (ordKey sch) g hne with ⟨r, hlast, hmem, _⟩
      exact ⟨r, by rw [if_pos h2]; exact hlast, hmem⟩
    · rw [if_neg h2]
      by_cases h3 : (sch.hasSeq && g.any (fun r => r.Sequence.isSome)) = true
      · have h3' : g.any (fun r => r.Sequence.isSome) = true := (Bool.and_eq_true _ _).mp h3 |>.2
        rcases argmaxFirst_spec (fun r => r.Sequence) g h3' with ⟨r, m, l₁, l₂, hpick, heq, _, _, _⟩
        exact ⟨r, by rw [if_pos h3]; exact hpick, by rw [heq]; exact List.mem_append_right _ (List.mem_cons_self _ _)⟩
      · rcases getLast?_isSome_of_ne_nil g hne with ⟨r, hr⟩
        exact ⟨r, by rw [if_neg h3]; exact hr, getLast?_mem g r hr⟩

theorem runKeys_mem (rows : List StepRow) (k : Int) :
    k ∈ runKeys rows ↔ k ∈ rows.filterMap (fun r => r.RunId) := by
  rw [runKeys]
  rw [(sortK_perm _ _).mem_iff]
  constructor
  · intro h; exact dedupKF_subset id _ k h
  · intro h
    have := (dedupKF_key_mem id (rows.filterMap (fun r => r.RunId)) k).mpr
      (by rw [List.map_id]; exact h)
    rw [List.map_id] at this
    exact this

theorem runKeys_nodup (rows : List StepRow) : (runKeys rows).Nodup := by
  rw [runKeys]
  refine (sortK_perm _ _).nodup_iff.mpr ?_
  have := dedupKF_keys_nodup id (rows.filterMap (fun r => r.RunId))
  rwa [List.map_id] at this

/-- Every row selected by `currentStep` carries the `RunId` of its
group, and there is exactly one selected row per distinct non-null
`RunId`, in ascending key order. -/
theorem filterMap_pick_runIds (sch : RSSchema) (rows : List StepRow) :
    ∀ ks : List Int,
      (∀ k ∈ ks, rows.filter (fun r => decide (r.RunId = some k)) ≠ []) →
      ((ks.filterMap
          (fun k => pickCurrent sch (rows.filter (fun r => decide (r.RunId = some k))))).map
        (fun r => r.RunId)) = ks.map some := by
  intro ks
  induction ks with
  | nil => intro _; simp
  | cons k ks ih =>
    intro hgrp
    rcases pickCurrent_isSome_mem sch _ (hgrp k (List.mem_cons_self _ _)) with ⟨r, hpick, hmem⟩
    have hrk : r.RunId = some k := by
      have := List.mem_filter.mp hmem
      simpa using this.2
    rw [List.filterMap_cons, hpick]
    simp only [List.map_cons, hrk]
    rw [ih (fun k' hk' => hgrp k' (List.mem_cons_of_mem _ hk'))]

theorem currentStep_runIds (sch : RSSchema) (rows : List StepRow) :
    (currentStep sch rows).map (fun r => r.RunId) = (runKeys rows).map some := by
  rw [currentStep]
  refine filterMap_pick_runIds sch rows (runKeys rows) ?_
  intro k hk
  rcases List.mem_filterMap.mp ((runKeys_mem rows k).mp hk) with ⟨r, hr, hrk⟩
  intro hnil
  have : r ∈ rows.filter (fun r => decide (r.RunId = some k)) :=
    List.mem_filter.mpr ⟨hr, by simp [hrk]⟩
  rw [hnil] at this
  simp at this

/-! ### The other six tables -/

/-- A `run` row after `rename(columns={"Id": "RunId"})`. -/
structure RunRow where
  RunId : Option Int
  Label : Option String
  Name : Option String
  Motivation : Option String
  Status : Option String
  RunTypeId : Option Int
deriving DecidableEq

/-- A `process_module` row after `pd.to_numeric(..., errors="coerce")`. -/
structure PMRow where
  Id : Option Int
  ProcessId : Option Int
  ModuleId : Option Int
deriving DecidableEq

/-- A `process` row (pre-rename field names). -/
structure ProcRow where
  Id : Option Int
  Name : Option String
  CategoryId : Option Int
deriving DecidableEq

/-- A `process_category` row (pre-rename field names). -/
structure CatRow where
  Id : Option Int
  Name : Option String
deriving DecidableEq

/-- A `process_type_category` bridge row. -/
structure PtcRow where
  TypeId : Option Int
  CategoryId : Option Int
deriving DecidableEq

/-- A `process_type` row (pre-rename field names). -/
structure PtypeRow where
  Id : Option Int
  Name : Option String
deriving DecidableEq

/-- Sort key of
`pm_raw.sort_values(["Id", "_score"], ascending=[True, False], kind="stable")`
where `_score = ProcessId.notna().astype(int)`: ascending on `Id` (nulls
last), then descending on the score, i.e. rows with `ProcessId` present
first. -/
def pmKey (r : PMRow) : List Int :=
  optKeyAsc r.Id ++ [if r.ProcessId.isSome then 0 else 1]

/-- Shallow embedding of `pm_by_module`: one representative row per
`Id`, preferring rows where `ProcessId` is present (stable sort followed
by `drop_duplicates(subset=["Id"], keep="first")`). -/
def pmByModule (pm : List PMRow) : List PMRow :=
  dedupKF (fun r => r.Id) (sortK pmKey pm)

theorem listLe_append_same : ∀ c as bs : List Int,
    listLe (c ++ as) (c ++ bs) = listLe as bs := by
  intro c
  induction c with
  | nil => intro as bs; rfl
  | cons x c ih =>
    intro as bs
    simp only [List.cons_append, listLe, lt_irrefl, if_false]
    exact ih as bs

/-- Characterization of the representative row kept per `Id`: the first
original-order row of the class whose `ProcessId` is present, else the
first original-order row of the class. -/
theorem pmByModule_find (pm : List PMRow) (k : Option Int) :
    (pmByModule pm).find? (fun r => decide (r.Id = k)) =
      match pm.find? (fun r => decide (r.Id = k) && r.ProcessId.isSome) with
      | some r => some r
      | none => pm.find? (fun r => decide (r.Id = k)) := by
  rw [pmByModule]
  rw [find?_dedupKF (fun r : PMRow => r.Id) (fun r => decide (r.Id = k))
    (by intro a b hab; simp [hab]) (sortK pmKey pm)]
  induction pm with
  | nil => simp [sortK]
  | cons x pm ih =>
    rw [sortK]
    cases hPx : decide (x.Id = k) with
    | false =>
      rw [find?_insertK_of_neg pmKey _ x hPx]
      rw [ih]
      simp only [List.find?, hPx, Bool.false_and]
    | true =>
      have hIdx : x.Id = k := of_decide_eq_true hPx
      cases hSx : x.ProcessId.isSome with
      | true =>
        have hQx : (decide (x.Id = k) && x.ProcessId.isSome) = true := by
          rw [hPx, hSx]
          rfl
        rw [find?_insertK_of_min pmKey _ x hPx ?hmin]
        · simp only [List.find?, hQx]
        case hmin =>
          intro y hy
          have hIdy : y.Id = k := of_decide_eq_true hy
          simp only [pmKey, hIdx, hIdy, hSx]
          rw [listLe_append_same]
          cases y.ProcessId.isSome <;> decide
      | false =>
        have hQx : (decide (x.Id = k) && x.ProcessId.isSome) = false := by
          rw [hSx]
          simp
        rw [find?_insertK_between pmKey (fun r => decide (r.Id = k))
          (fun r => decide (r.Id = k) && r.ProcessId.isSome) x (sortK pmKey pm)
          (sortK_pairwise pmKey pm) hPx hQx ?hQP ?hql ?hpq]
        · rw [find?_sortK_of_const pmKey _ (optKeyAsc k ++ [0]) ?hconst]
          · simp only [List.find?, hPx, hSx, Bool.and_false]
            cases pm.find? (fun r => decide (r.Id = k) && r.ProcessId.isSome) with
            | none => rfl
            | some r => rfl
          case hconst =>
            intro a ha
            have ha' : (decide (a.Id = k) && a.ProcessId.isSome) = true := ha
            rw [Bool.and_eq_true] at ha'
            have hIda : a.Id = k := of_decide_eq_true ha'.1
            simp [pmKey, hIda, ha'.2]
        case hQP =>
          intro z hz
          have hz' : (decide (z.Id = k) && z.ProcessId.isSome) = true := hz
          rw [Bool.and_eq_true] at hz'
          exact hz'.1
        case hql =>
          intro z hz
          have hz' : (decide (z.Id = k) && z.ProcessId.isSome) = true := hz
          rw [Bool.and_eq_true] at hz'
          have hIdz : z.Id = k := of_decide_eq_true hz'.1
          simp only [pmKey, hIdx, hIdz, hSx, hz'.2]
          rw [listLe_append_same]
          decide
        case hpq =>
          intro z hz1 hz2
          have hIdz : z.Id = k := of_decide_eq_true hz1
          have h2 : (decide (z.Id = k) && z.ProcessId.isSome) = false := hz2
          rw [show decide (z.Id = k) = true from hz1, Bool.true_and] at h2
          simp only [pmKey, hIdx, hIdz, hSx, h2]
          exact listLe_refl _

/-! ### Left merges (pandas `merge(how="left")`) -/

/-- Pandas left merge: each left row is repeated once per matching right
row (in right-table order) with the right columns attached by `upd`, or
kept once unchanged (right columns null) when nothing matches.  Pandas
matches null keys to null keys, which `p` reflects via `Option`
equality. -/
def leftMergeF (l : List α) (r : List β) (p : α → β → Bool) (upd : α → β → α) : List α :=
  (l.map (fun a =>
    match r.filter (p a) with
    | [] => [a]
    | ms => ms.map (upd a))).flatten

theorem leftMergeF_map_key (π : α → γ) (r : List β) (p : α → β → Bool)
    (upd : α → β → α) (hupd : ∀ a b, π (upd a b) = π a) :
    ∀ l : List α, (∀ a ∈ l, (r.filter (p a)).length ≤ 1) →
      (leftMergeF l r p upd).map π = l.map π := by
  intro l
  induction l with
  | nil => intro _; simp [leftMergeF]
  | cons a l' ih =>
    intro hm
    rw [leftMergeF, List.map_cons, List.flatten_cons, List.map_append]
    have hrec : (leftMergeF l' r p upd).map π = l'.map π :=
      ih (fun a' ha' => hm a' (List.mem_cons_of_mem _ ha'))
    rw [leftMergeF] at hrec
    rw [hrec]
    cases e : r.filter (p a) with
    | nil => simp
    | cons b bs =>
      have hlen := hm a (List.mem_cons_self _ _)
      rw [e] at hlen
      simp only [List.length_cons] at hlen
      have : bs = [] := List.eq_nil_of_length_eq_zero (by omega)
      subst this
      simp [hupd]

theorem leftMergeF_mem_key (π : α → γ) (l : List α) (r : List β) (p : α → β → Bool)
    (upd : α → β → α) (hupd : ∀ a b, π (upd a b) = π a) :
    ∀ x ∈ leftMergeF l r p upd, ∃ a ∈ l, π x = π a := by
  intro x hx
  rw [leftMergeF] at hx
  rcases List.mem_flatten.mp hx with ⟨grp, hgrp, hxg⟩
  rcases List.mem_map.mp hgrp with ⟨a, ha, hga⟩
  rw [← hga] at hxg
  refine ⟨a, ha, ?_⟩
  cases e : r.filter (p a) with
  | nil => rw [e] at hxg; simp at hxg; rw [hxg]
  | cons b bs =>
    rw [e] at hxg
    rcases List.mem_map.mp hxg with ⟨b', _, hb'⟩
    rw [← hb']
    exact hupd a b'

/-! ### The joined current-step row and the output projection -/

/-- The denormalized row produced by the `c1 … c5` merge chain plus the
`run_names` merge and `MotivationText`; columns contributed by a later
merge start as null. -/
structure JRow where
  RunId : Option Int
  ProcessModuleId : Option Int
  Sequence : Option Int
  batchIdx : Option Int
  fragIdx : Option Int
  started_at : Option Int
  finished_at : Option Int
  status : Option String
  updated_at : Option Int
  Id_pm : Option Int
  ProcessId : Option Int
  ModuleId : Option Int
  ProcessName : Option String
  CategoryId : Option Int
  CategoryName : Option String
  TypeId : Option Int
  ProcessTypeId : Option Int
  ProcessTypeName : Option String
  Label : Option String
  RunName : Option String
  Motivation : Option String
  Status : Option String
  MotivationText : Option String
deriving DecidableEq

/-- Lift a selected current-step row into the merge-chain row type. -/
def stepToJ (s : StepRow) : JRow :=
  { RunId := s.RunId, ProcessModuleId := s.ProcessModuleId, Sequence := s.Sequence
    batchIdx := s.batchIdx, fragIdx := s.fragIdx
    started_at := s.started_at, finished_at := s.finished_at
    status := s.status, updated_at := s.updated_at
    Id_pm := none, ProcessId := none, ModuleId := none
    ProcessName := none, CategoryId := none, CategoryName := none
    TypeId := none, ProcessTypeId := none, ProcessTypeName := none
    Label := none, RunName := none, Motivation := none, Status := none
    MotivationText := none }

/-- Remove `<...>` tag spans from a character list; models
`re.sub(r"<[^>]+>", "", s)` on input whose tags are well formed. -/
def dropTags : List Char → Bool → List Char
  | [], _ => []
  | c :: cs, true => if c = '>' then dropTags cs false else dropTags cs true
  | c :: cs, false => if c = '<' then dropTags cs true else c :: dropTags cs false

/-- Modelled library step: `strip_html` = tag removal followed by
`str.strip()` (leading/trailing whitespace removed). -/
def stripHtml (s : String) : String :=
  ⟨((dropTags s.data false).dropWhile (fun c => c.isWhitespace)).reverse.dropWhile
      (fun c => c.isWhitespace) |>.reverse⟩

/-- One output record of the JSON-friendly projection loop. -/
structure BatchRec where
  batch_id : Int
  batch_number : String
  batch_name : String
  batch_status : String
  motivation : String
  process_name : String
  category_name : String
  process_type_name : String
  process_status : String
  started_at : String
  finished_at : String
deriving DecidableEq

/-- Shallow embedding of the per-row record construction: each field is
the stringified value when present, with the defaults of the source
(`0` for the identifier, `"Unknown"` for `batch_name` and
`process_status`, `""` everywhere else). -/
def projectRecord (r : JRow) : BatchRec :=
  { batch_id := r.RunId.getD 0
    batch_number := r.Label.getD ""
    batch_name := r.RunName.getD "Unknown"
    batch_status := r.Status.getD ""
    motivation := r.MotivationText.getD ""
    process_name := r.ProcessName.getD ""
    category_name := r.CategoryName.getD ""
    process_type_name := r.ProcessTypeName.getD ""
    process_status := r.status.getD "Unknown"
    started_at := (r.started_at.map (fun v => toString v)).getD ""
    finished_at := (r.finished_at.map (fun v => toString v)).getD "" }

/-- Sort key of `sort_values(["RunId"], kind="stable", ascending=False)`:
descending `RunId`, nulls last. -/
def descRunKey (r : JRow) : List Int :=
  match r.RunId with
  | none => [1, 0]
  | some v => [0, -v]

/-- Merge `c1`: attach the representative `process_module` row on
`ProcessModuleId = process_module.Id`. -/
def mergePM (l : List JRow) (pmT : List PMRow) : List JRow :=
  leftMergeF l (pmByModule pmT)
    (fun a b => decide (a.ProcessModuleId = b.Id))
    (fun a b => { a with Id_pm := b.Id, ProcessId := b.ProcessId, ModuleId := b.ModuleId })

/-- Merge `c2`: attach the deduplicated `process` row on `ProcessId`. -/
def mergeProc (l : List JRow) (procT : List ProcRow) : List JRow :=
  leftMergeF l (dedupKF (fun r => r.Id) procT)
    (fun a b => decide (a.ProcessId = b.Id))
    (fun a b => { a with ProcessName := b.Name, CategoryId := b.CategoryId })

/-- Merge `c3`: attach the deduplicated `process_category` row on
`CategoryId`. -/
def mergeCat (l : List JRow) (catT : List CatRow) : List JRow :=
  leftMergeF l (dedupKF (fun r => r.Id) catT)
    (fun a b => decide (a.CategoryId = b.Id))
    (fun a b => { a with CategoryName := b.Name })

/-- Merge `c4`: attach the `process_type_category` bridge rows (full-row
deduplicated only) on `CategoryId`. -/
def mergePtc (l : List JRow) (ptcT : List PtcRow) : List JRow :=
  leftMergeF l (dedupKF id ptcT)
    (fun a b => decide (a.CategoryId = b.CategoryId))
    (fun a b => { a with TypeId := b.TypeId })

/-- Merge `c5`: attach the deduplicated `process_type` row on
`TypeId = process_type.Id`. -/
def mergePtype (l : List JRow) (ptypeT : List PtypeRow) : List JRow :=
  leftMergeF l (dedupKF (fun r => r.Id) ptypeT)
    (fun a b => decide (a.TypeId = b.Id))
    (fun a b => { a with ProcessTypeId := b.Id, ProcessTypeName := b.Name })

/-- The `run_names` merge: attach `Label`/`Name`/`Motivation`/`Status`
of the (twice) deduplicated run table on `RunId`. -/
def mergeRun (l : List JRow) (runT : List RunRow) : List JRow :=
  leftMergeF l (dedupKF (fun r => r.RunId) (dedupKF (fun r => r.RunId) runT))
    (fun a b => decide (a.RunId = b.RunId))
    (fun a b => { a with Label := b.Label, RunName := b.Name,
                         Motivation := b.Motivation, Status := b.Status })

/-- `c5["MotivationText"] = c5["Motivation"].map(strip_html)`. -/
def addMotText (l : List JRow) : List JRow :=
  l.map (fun a => { a with MotivationText := a.Motivation.map stripHtml })

/-- The joined current-step rows: pick the current step of every run,
then resolve names through the merge chain. -/
def joinedCurrent (sch : RSSchema) (runT : List RunRow) (rsT : List RSRow)
    (pmT : List PMRow) (procT : List ProcRow) (catT : List CatRow)
    (ptcT : List PtcRow) (ptypeT : List PtypeRow) : List JRow :=
  addMotText
    (mergeRun
      (mergePtype
        (mergePtc
          (mergeCat
            (mergeProc
              (mergePM ((currentStep sch (rsT.map (mkStep sch))).map stepToJ) pmT)
              procT)
            catT)
          ptcT)
        ptypeT)
      runT)

/-- The whole resolution pipeline from typed tables to the output record
list: dedup each table on its natural key, enrich run_step, pick the
current step per run, resolve names through the five left merges plus
the `run_names` merge, compute `MotivationText`, sort by `RunId`
descending, and project. -/
def pipelineRecords (sch : RSSchema) (runT : List RunRow) (rsT : List RSRow)
    (pmT : List PMRow) (procT : List ProcRow) (catT : List CatRow)
    (ptcT : List PtcRow) (ptypeT : List PtypeRow) : List BatchRec :=
  (sortK descRunKey
      (joinedCurrent sch runT rsT pmT procT catT ptcT ptypeT)).map projectRecord

/-! ### Row-count / key preservation through the merge chain -/

theorem filter_keyEq_len [DecidableEq γ] (key : β → γ) (v : γ) :
    ∀ r : List β, (r.map key).Nodup →
      (r.filter (fun b => decide (v = key b))).length ≤ 1 := by
  intro r
  induction r with
  | nil => intro _; simp
  | cons b r ih =>
    intro hnd
    rw [List.map_cons, List.nodup_cons] at hnd
    rw [List.filter_cons]
    by_cases hv : v = key b
    · rw [if_pos (by simpa using hv)]
      have hempty : r.filter (fun b' => decide (v = key b')) = [] := by
        rw [List.filter_eq_nil_iff]
        intro b' hb'
        simp only [decide_eq_true_eq]
        intro he
        exact hnd.1 (List.mem_map.mpr ⟨b', hb', by rw [← he, ← hv]⟩)
      rw [hempty]
      simp
    · rw [if_neg (by simpa using hv)]
      exact ih hnd.2

theorem mergePM_map_runId (l : List JRow) (pmT : List PMRow) :
    (mergePM l pmT).map (fun r => r.RunId) = l.map (fun r => r.RunId) := by
  rw [mergePM]
  apply leftMergeF_map_key
  · intro a b; rfl
  · intro a _
    exact filter_keyEq_len (fun r : PMRow => r.Id) a.ProcessModuleId _
      (dedupKF_keys_nodup (fun r : PMRow => r.Id) _)

theorem mergeProc_map_runId (l : List JRow) (procT : List ProcRow) :
    (mergeProc l procT).map (fun r => r.RunId) = l.map (fun r => r.RunId) := by
  rw [mergeProc]
  apply leftMergeF_map_key
  · intro a b; rfl
  · intro a _
    exact filter_keyEq_len (fun r : ProcRow => r.Id) a.ProcessId _
      (dedupKF_keys_nodup (fun r : ProcRow => r.Id) _)

theorem mergeCat_map_runId (l : List JRow) (catT : List CatRow) :
    (mergeCat l catT).map (fun r => r.RunId) = l.map (fun r => r.RunId) := by
  rw [mergeCat]
  apply leftMergeF_map_key
  · intro a b; rfl
  · intro a _
    exact filter_keyEq_len (fun r : CatRow => r.Id) a.CategoryId _
      (dedupKF_keys_nodup (fun r : CatRow => r.Id) _)

/-- The bridge-table merge preserves row identity only when the
deduplicated bridge carries at most one row per `CategoryId`. -/
theorem mergePtc_map_runId (l : List JRow) (ptcT : List PtcRow)
    (h : ((dedupKF id ptcT).map (fun r => r.CategoryId)).Nodup) :
    (mergePtc l ptcT).map (fun r => r.RunId) = l.map (fun r => r.RunId) := by
  rw [mergePtc]
  apply leftMergeF_map_key
  · intro a b; rfl
  · intro a _
    exact filter_keyEq_len (fun r : PtcRow => r.CategoryId) a.CategoryId _ h

theorem mergePtype_map_runId (l : List JRow) (ptypeT : List PtypeRow) :
    (mergePtype l ptypeT).map (fun r => r.RunId) = l.map (fun r => r.RunId) := by
  rw [mergePtype]
  apply leftMergeF_map_key
  · intro a b; rfl
  · intro a _
    exact filter_keyEq_len (fun r : PtypeRow => r.Id) a.TypeId _
      (dedupKF_keys_nodup (fun r : PtypeRow => r.Id) _)

theorem mergeRun_map_runId (l : List JRow) (runT : List RunRow) :
    (mergeRun l runT).map (fun r => r.RunId) = l.map (fun r => r.RunId) := by
  rw [mergeRun]
  apply leftMergeF_map_key
  · intro a b; rfl
  · intro a _
    exact filter_keyEq_len (fun r : RunRow => r.RunId) a.RunId _
      (dedupKF_keys_nodup (fun r : RunRow => r.RunId) _)

theorem addMotText_map_runId (l : List JRow) :
    (addMotText l).map (fun r => r.RunId) = l.map (fun r => r.RunId) := by
  rw [addMotText, List.map_map]
  rfl

/-- Under the no-fanout hypothesis on the bridge table, the joined
current-step rows carry exactly the distinct `RunId` keys, in order. -/
theorem joined_map_runIds (sch : RSSchema) (runT : List RunRow) (rsT : List RSRow)
    (pmT : List PMRow) (procT : List ProcRow) (catT : List CatRow)
    (ptcT : List PtcRow) (ptypeT : List PtypeRow)
    (hptc : ((dedupKF id ptcT).map (fun r => r.CategoryId)).Nodup) :
    (joinedCurrent sch runT rsT pmT procT catT ptcT ptypeT).map (fun r => r.RunId) =
      (runKeys (rsT.map (mkStep sch))).map some := by
  rw [joinedCurrent, addMotText_map_runId, mergeRun_map_runId, mergePtype_map_runId,
    mergePtc_map_runId _ _ hptc, mergeCat_map_runId, mergeProc_map_runId,
    mergePM_map_runId, List.map_map]
  have : ((fun r : JRow => r.RunId) ∘ stepToJ) = (fun s : StepRow => s.RunId) := rfl
  rw [this, currentStep_runIds]

theorem mergePM_mem_runId (l : List JRow) (pmT : List PMRow) :
    ∀ x ∈ mergePM l pmT, ∃ a ∈ l, x.RunId = a.RunId := by
  rw [mergePM]
  exact leftMergeF_mem_key (fun r : JRow => r.RunId) _ _ _ _ (fun _ _ => rfl)

theorem mergeProc_mem_runId (l : List JRow) (procT : List ProcRow) :
    ∀ x ∈ mergeProc l procT, ∃ a ∈ l, x.RunId = a.RunId := by
  rw [mergeProc]
  exact leftMergeF_mem_key (fun r : JRow => r.RunId) _ _ _ _ (fun _ _ => rfl)

theorem mergeCat_mem_runId (l : List JRow) (catT : List CatRow) :
    ∀ x ∈ mergeCat l catT, ∃ a ∈ l, x.RunId = a.RunId := by
  rw [mergeCat]
  exact leftMergeF_mem_key (fun r : JRow => r.RunId) _ _ _ _ (fun _ _ => rfl)

theorem mergePtc_mem_runId (l : List JRow) (ptcT : List PtcRow) :
    ∀ x ∈ mergePtc l ptcT, ∃ a ∈ l, x.RunId = a.RunId := by
  rw [mergePtc]
  exact leftMergeF_mem_key (fun r : JRow => r.RunId) _ _ _ _ (fun _ _ => rfl)

theorem mergePtype_mem_runId (l : List JRow) (ptypeT : List PtypeRow) :
    ∀ x ∈ mergePtype l ptypeT, ∃ a ∈ l, x.RunId = a.RunId := by
  rw [mergePtype]
  exact leftMergeF_mem_key (fun r : JRow => r.RunId) _ _ _ _ (fun _ _ => rfl)

theorem mergeRun_mem_runId (l : List JRow) (runT : List RunRow) :
    ∀ x ∈ mergeRun l runT, ∃ a ∈ l, x.RunId = a.RunId := by
  rw [mergeRun]
  exact leftMergeF_mem_key (fun r : JRow => r.RunId) _ _ _ _ (fun _ _ => rfl)

/-- Unconditionally, every joined row's `RunId` originates from a
selected current-step row, hence is non-null. -/
theorem joined_runId_isSome (sch : RSSchema) (runT : List RunRow) (rsT : List RSRow)
    (pmT : List PMRow) (procT : List ProcRow) (catT : List CatRow)
    (ptcT : List PtcRow) (ptypeT : List PtypeRow) :
    ∀ x ∈ joinedCurrent sch runT rsT pmT procT catT ptcT ptypeT,
      ∃ k, x.RunId = some k := by
  intro x hx
  rw [joinedCurrent, addMotText] at hx
  rcases List.mem_map.mp hx with ⟨x6, hx6, hxeq⟩
  have hR6 : x.RunId = x6.RunId := by rw [← hxeq]
  rcases mergeRun_mem_runId _ _ x6 hx6 with ⟨x5, hx5, hR5⟩
  rcases mergePtype_mem_runId _ _ x5 hx5 with ⟨x4, hx4, hR4⟩
  rcases mergePtc_mem_runId _ _ x4 hx4 with ⟨x3, hx3, hR3⟩
  rcases mergeCat_mem_runId _ _ x3 hx3 with ⟨x2, hx2, hR2⟩
  rcases mergeProc_mem_runId _ _ x2 hx2 with ⟨x1, hx1, hR1⟩
  rcases mergePM_mem_runId _ _ x1 hx1 with ⟨x0, hx0, hR0⟩
  rcases List.mem_map.mp hx0 with ⟨s, hs, hseq⟩
  have hmap := currentStep_runIds sch (rsT.map (mkStep sch))
  have hsmem : s.RunId ∈ (currentStep sch (rsT.map (mkStep sch))).map (fun r => r.RunId) :=
    List.mem_map_of_mem _ hs
  rw [hmap] at hsmem
  rcases List.mem_map.mp hsmem with ⟨k, _, hk⟩
  refine ⟨k, ?_⟩
  rw [hR6, hR5, hR4, hR3, hR2, hR1, hR0, ← hseq]
  exact hk.symm

/-! ### Schema-defensive parquet reader (`read_parquet_subset`) -/

/-- An untyped tabular result: named columns plus row-major cells. -/
structure DataFrame where
  cols : List String
  rows : List (List String)
deriving DecidableEq

/-- A downloaded parquet file: its arrow schema's column-name list (in
positional order, duplicates possible) and its row-major data. -/
structure ParquetFile where
  schemaCols : List String
  data : List (List String)
deriving DecidableEq

/-- First positional index of a column name in a schema. -/
def firstIdx (cols : List String) (n : String) : Nat :=
  (cols.findIdx? (fun c => decide (c = n))).getD 0

/-- Select named columns from a dataframe; a requested name takes the
first column bearing it. -/
def dfSelect (df : DataFrame) (names : List String) : DataFrame :=
  { cols := names
    rows := df.rows.map (fun row => names.map (fun n => row.getD (firstIdx df.cols n) "")) }

/-- Modelled library primitive: `parquet_file.read(columns=...)` /
`parquet_file.read()`; a name selects the first matching schema column,
`none` reads the whole table. -/
def pfRead (f : ParquetFile) (sel : Option (List String)) : DataFrame :=
  match sel with
  | none => { cols := f.schemaCols, rows := f.data }
  | some names => dfSelect { cols := f.schemaCols, rows := f.data } names

/-- `len(col_names) != len(set(col_names))`: does the schema carry a
duplicate column name? -/
def hasDupCols (cols : List String) : Bool :=
  decide (cols.length ≠ (dedupKF id cols).length)

/-- The column list passed to the physical read, extracted from the
source's branching: on a duplicated schema, the first occurrence of each
distinct name (computed by positional index); on a clean schema, the
requested columns that exist, or a full read (`none`) when none of them
do. -/
def physReadCols (f : ParquetFile) (columns : List String) : Option (List String) :=
  if hasDupCols f.schemaCols then some (dedupKF id f.schemaCols)
  else if (columns.filter (fun c => decide (c ∈ f.schemaCols))).isEmpty then none
  else some (columns.filter (fun c => decide (c ∈ f.schemaCols)))

/-- Shallow embedding of `read_parquet_subset`: `none` input stands for
any download/read/parse failure (the surrounding `try/except`), which
yields an empty frame headed by the requested columns; otherwise the
physical read happens per `physReadCols` and the result is restricted to
the requested columns that are present (again empty-with-requested
headers when none are). -/
def readParquetSubset (file : Option ParquetFile) (columns : List String) : DataFrame :=
  match file with
  | none => { cols := columns, rows := [] }
  | some f =>
    if columns.isEmpty then pfRead f (physReadCols f columns)
    else if (columns.filter
        (fun c => decide (c ∈ (pfRead f (physReadCols f columns)).cols))).isEmpty then
      { cols := columns, rows := [] }
    else
      dfSelect (pfRead f (physReadCols f columns))
        (columns.filter (fun c => decide (c ∈ (pfRead f (physReadCols f columns)).cols)))

/-! ### Blob discovery (`pick_blob_from_list` / `guess_blob_for_table`) -/

/-- ASCII lowercasing of one character; models `str.lower()` on the
blob-name alphabet. -/
def lcChar (c : Char) : Char :=
  if 'A' ≤ c ∧ c ≤ 'Z' then Char.ofNat (c.toNat + 32) else c

/-- The discovery environment: the container listing and the outcome of
the HEAD / ranged-GET existence probe per candidate path. -/
structure BlobEnv where
  blobs : List String
  probeOk : String → Bool

/-- The fixed candidate relative paths per table (`CANDIDATES`). -/
def candidatePaths (tbl : String) : List String :=
  if tbl = "run" then
    ["run.parquet", "parquet/run.parquet", "tables/run.parquet", "delta/run.parquet"]
  else if tbl = "run_step" then
    ["run_step.parquet", "parquet/run_step.parquet", "tables/run_step.parquet",
      "delta/run_step.parquet"]
  else if tbl = "process_module" then
    ["process_module.parquet", "parquet/process_module.parquet", "tables/process_module.parquet"]
  else if tbl = "process" then
    ["process.parquet", "parquet/process.parquet", "tables/process.parquet"]
  else if tbl = "process_category" then
    ["process_category.parquet", "parquet/process_category.parquet",
      "tables/process_category.parquet"]
  else if tbl = "process_type_category" then
    ["process_type_category.parquet", "parquet/process_type_category.parquet",
      "tables/process_type_category.parquet"]
  else if tbl = "process_type" then
    ["process_type.parquet", "parquet/process_type.parquet", "tables/process_type.parquet"]
  else []

/-- `pick_blob_from_list`: first listing entry equal (case-insensitively)
to `<table>.parquet` or ending in `/<table>.parquet`; else the first
entry merely ending in the leaf name. -/
def pickBlobFromList (blobs : List String) (tbl : String) : Option String :=
  let leaf := (tbl ++ ".parquet").data
  let lower := fun (b : String) => b.data.map lcChar
  match blobs.find? (fun b => decide (lower b = leaf) || decide (('/' :: leaf).IsSuffix (lower b))) with
  | some b => some b
  | none => blobs.find? (fun b => decide (leaf.IsSuffix (lower b)))

/-- `guess_blob_for_table`: the first candidate path whose existence
probe succeeds. -/
def guessBlob (env : BlobEnv) (tbl : String) : Option String :=
  (candidatePaths tbl).find? env.probeOk

/-- One table's resolution: the listing first (when non-empty), then the
candidate probes. -/
def resolveTable (env : BlobEnv) (tbl : String) : Option String :=
  match (if env.blobs.isEmpty then none else pickBlobFromList env.blobs tbl) with
  | some b => some b
  | none => guessBlob env tbl

/-- `sorted(NEEDED)`: the seven required tables in the order the
discovery loop visits them. -/
def neededTables : List String :=
  ["process", "process_category", "process_module", "process_type",
    "process_type_category", "run", "run_step"]

/-- The discovery loop: resolve every required table in order, failing
fast with the missing table's logical name. -/
def selectLoop (env : BlobEnv) : List String → Except String (List (String × String))
  | [] => Except.ok []
  | t :: ts =>
    match resolveTable env t with
    | none => Except.error ("Missing remote parquet for table: " ++ t)
    | some b =>
      match selectLoop env ts with
      | Except.error e => Except.error e
      | Except.ok rest => Except.ok ((t, b) :: rest)

/-- The typed content of the seven tables (what the reads would produce
after the reader layer). -/
structure TableSet where
  runT : List RunRow
  sch : RSSchema
  rsT : List RSRow
  pmT : List PMRow
  procT : List ProcRow
  catT : List CatRow
  ptcT : List PtcRow
  ptypeT : List PtypeRow

/-- The whole invocation: discovery of all seven tables first; only when
every table resolves does the pipeline run over the table contents.  A
discovery failure is an `Except.error` naming the missing table and
carrying no data. -/
def runPipeline (env : BlobEnv) (ts : TableSet) : Except String (List BatchRec) :=
  match selectLoop env neededTables with
  | Except.error e => Except.error e
  | Except.ok _ =>
    Except.ok (pipelineRecords ts.sch ts.runT ts.rsT ts.pmT ts.procT ts.catT ts.ptcT ts.ptypeT)

/-! ## Claims -/

/-- C3: every run_step row is classified into exactly one of three
statuses from its combined `(started_at, finished_at)` timestamps:
`"Completed"` whenever `finished_at` is present (regardless of
`started_at`), `"In Progress"` whenever `started_at` is present and
`finished_at` is absent, and `"Not Started"` whenever both are absent;
the three cases are exhaustive and mutually exclusive. -/
theorem claim_C3_status_partition :
    ∀ started_at finished_at : Option Int,
      (stepStatus started_at finished_at = some "Completed" ↔ finished_at.isSome = true) ∧
      (stepStatus started_at finished_at = some "In Progress" ↔
        (started_at.isSome = true ∧ finished_at = none)) ∧
      (stepStatus started_at finished_at = some "Not Started" ↔
        (started_at = none ∧ finished_at = none)) ∧
      (stepStatus started_at finished_at = some "Completed" ∨
        stepStatus started_at finished_at = some "In Progress" ∨
        stepStatus started_at finished_at = some "Not Started") := by
  intro s f
  cases s <;> cases f <;> simp [stepStatus]

/-- C6: the table reader never lets a download/read/parse failure
escape (`none` stands for any such failure): it returns an empty table
whose column headers are exactly the originally requested column list,
so callers always receive a dataframe. -/
theorem claim_C6_reader_failure_policy :
    ∀ columns : List String,
      readParquetSubset none columns = { cols := columns, rows := [] } :=
  fun _ => rfl

/-- C4: `pm_by_module` deduplication keeps exactly one representative
row per `Id` value; when an `Id` appears in several rows the
representative is the first original-order row whose `ProcessId` is
non-null when one exists, else the first original-order row of the
class; in particular for two rows with `Id = 50`, one with
`ProcessId = None` and one with `ProcessId = 9`, the representative is
the row with `ProcessId = 9`; the choice is a function of the input, so
it is identical on every run over unchanged input. -/
theorem claim_C4_pm_representative :
    ∀ (pm : List PMRow) (k : Option Int),
      ((pmByModule pm).map (fun r => r.Id)).Nodup ∧
      (k ∈ (pmByModule pm).map (fun r => r.Id) ↔ k ∈ pm.map (fun r => r.Id)) ∧
      ((pmByModule pm).find? (fun r => decide (r.Id = k)) =
        match pm.find? (fun r => decide (r.Id = k) && r.ProcessId.isSome) with
        | some r => some r
        | none => pm.find? (fun r => decide (r.Id = k))) ∧
      (pmByModule [⟨some 50, none, some 1⟩, ⟨some 50, some 9, some 2⟩]
        = [⟨some 50, some 9, some 2⟩]) := by
  intro pm k
  refine ⟨dedupKF_keys_nodup (fun r : PMRow => r.Id) _, ?_, pmByModule_find pm k, by decide⟩
  rw [pmByModule]
  rw [dedupKF_key_mem (fun r : PMRow => r.Id) (sortK pmKey pm) k]
  exact ((sortK_perm pmKey pm).map (fun r : PMRow => r.Id)).mem_iff

theorem selectLoop_error (env : BlobEnv) :
    ∀ (L : List String) (t : String), t ∈ L → resolveTable env t = none →
      ∃ t', t' ∈ L ∧ resolveTable env t' = none ∧
        selectLoop env L = Except.error ("Missing remote parquet for table: " ++ t') := by
  intro L
  induction L with
  | nil => intro t ht; simp at ht
  | cons x L ih =>
    intro t ht hmiss
    cases hx : resolveTable env x with
    | none =>
      refine ⟨x, List.mem_cons_self _ _, hx, ?_⟩
      rw [selectLoop, hx]
    | some b =>
      have ht' : t ∈ L := by
        rcases List.mem_cons.mp ht with h | h
        · rw [h] at hmiss
          rw [hmiss] at hx
          exact absurd hx (by simp)
        · exact h
      rcases ih t ht' hmiss with ⟨t', ht'm, ht'r, hsel⟩
      refine ⟨t', List.mem_cons_of_mem _ ht'm, ht'r, ?_⟩
      rw [selectLoop, hx, hsel]

/-- C5: if any of the seven required tables resolves neither through the
blob listing nor through its candidate-path probes, the whole invocation
fails with an error naming a missing table's logical name, before any
table is read: the failure is the same for every possible table content,
and the error payload carries no partial result. -/
theorem claim_C5_discovery_failure (env : BlobEnv) (t : String)
    (ht : t ∈ neededTables) (hmiss : resolveTable env t = none) :
    ∃ t', t' ∈ neededTables ∧ resolveTable env t' = none ∧
      ∀ ts : TableSet, runPipeline env ts =
        Except.error ("Missing remote parquet for table: " ++ t') := by
  rcases selectLoop_error env neededTables t ht hmiss with ⟨t', h1, h2, h3⟩
  refine ⟨t', h1, h2, fun ts => ?_⟩
  rw [runPipeline, h3]

/-- Witness for C5 at a concrete environment: empty listing, all probes
failing. -/
theorem claim_C5_discovery_failure_witness :
    ("run" ∈ neededTables ∧ resolveTable ⟨[], fun _ => false⟩ "run" = none) ∧
    (∃ t', t' ∈ neededTables ∧ resolveTable ⟨[], fun _ => false⟩ t' = none ∧
      ∀ ts : TableSet, runPipeline ⟨[], fun _ => false⟩ ts =
        Except.error ("Missing remote parquet for table: " ++ t')) :=
  ⟨⟨by decide, rfl⟩, claim_C5_discovery_failure ⟨[], fun _ => false⟩ "run" (by decide) rfl⟩

/-- C8 counterexample: a garbled time-of-day does not default to
midnight — `"abc"` strips to the empty string, whose timedelta parse
coerces to null, so the combined instant is null even though the date is
valid; the midnight instant is what a missing time produces. -/
theorem claim_C8_counterexample :
    combineDT (some "2024-01-05") (some "abc") = none ∧
    combineDT (some "2024-01-05") none = some (dateEnc (2024, 1, 5)) ∧
    combineDT (some "2024-01-05") (some "abc") ≠ combineDT (some "2024-01-05") none := by
  exact ⟨by decide, by decide, by decide⟩

/-- C8 as amended: timestamp construction combines a date field and a
time-of-day field into one instant; a missing time-of-day defaults to
midnight (the instant equals the date at 00:00); every character that is
not a digit or a colon is stripped from the time string before parsing
(the instant depends on the time string only through its stripped form);
an invalid date yields no value for the combined instant instead of
raising; and a time string whose stripped form still fails to parse also
yields no value for the combined instant (rather than defaulting to
midnight as originally claimed). -/
theorem claim_C8_combine_dt (dstr s s' : String) (t : Option String)
    (ymd : Nat × Nat × Nat) :
    (combineDT none t = none) ∧
    (parseDate dstr = none → combineDT (some dstr) t = none) ∧
    (parseDate dstr = some ymd → combineDT (some dstr) none = some (dateEnc ymd)) ∧
    (cleanTime s.data = cleanTime s'.data →
      combineDT (some dstr) (some s) = combineDT (some dstr) (some s')) ∧
    (parseClock (cleanTime s.data) = none → combineDT (some dstr) (some s) = none) := by
  refine ⟨?_, ?_, ?_, ?_, ?_⟩
  · cases hpc : parseClock (cleanTime ((t.getD "00:00:00").data)) with
    | none => simp [combineDT, hpc]
    | some tv => simp [combineDT, hpc]
  · intro h
    cases hpc : parseClock (cleanTime ((t.getD "00:00:00").data)) with
    | none => simp [combineDT, hpc, h]
    | some tv => simp [combineDT, hpc, h]
  · intro h
    show (match ((some dstr).bind parseDate).map dateEnc,
        parseClock (cleanTime (((none : Option String).getD "00:00:00").data)) with
      | some dv, some tv => some (dv + tv)
      | _, _ => none) = some (dateEnc ymd)
    rw [show (some dstr).bind parseDate = some ymd from h]
    rw [show parseClock (cleanTime (((none : Option String).getD "00:00:00").data)) = some 0
      from by decide]
    show some (dateEnc ymd + 0) = some (dateEnc ymd)
    rw [Int.add_zero]
  · intro hclean
    simp only [combineDT, Option.getD_some]
    rw [hclean]
  · intro h
    simp [combineDT, Option.getD_some, h]

/-- Witness for C8 at concrete inputs: a null date, an invalid date, a
missing time (midnight), an equal-after-stripping pair, and an
unparseable stripped time. -/
theorem claim_C8_combine_dt_witness :
    (combineDT none (some "10:30") = none) ∧
    (parseDate "2024-13-05" = none ∧ combineDT (some "2024-13-05") (some "10:30") = none) ∧
    (parseDate "2024-01-05" = some (2024, 1, 5) ∧
      combineDT (some "2024-01-05") none = some (dateEnc (2024, 1, 5))) ∧
    (cleanTime ("10:30 AM".data) = cleanTime ("10:30".data) ∧
      combineDT (some "2024-01-05") (some "10:30 AM") =
        combineDT (some "2024-01-05") (some "10:30")) ∧
    (parseClock (cleanTime ("abc".data)) = none ∧
      combineDT (some "2024-01-05") (some "abc") = none) := by
  refine ⟨?_, ⟨by decide, ?_⟩, ⟨by decide, ?_⟩, ⟨by decide, ?_⟩, ⟨by decide, ?_⟩⟩
  · exact (claim_C8_combine_dt "x" "x" "x" (some "10:30") (0, 0, 0)).1
  · exact (claim_C8_combine_dt "2024-13-05" "x" "x" (some "10:30") (0, 0, 0)).2.1 (by decide)
  · exact (claim_C8_combine_dt "2024-01-05" "x" "x" none (2024, 1, 5)).2.2.1 (by decide)
  · exact (claim_C8_combine_dt "2024-01-05" "10:30 AM" "10:30" none (0, 0, 0)).2.2.2.1
      (by decide)
  · exact (claim_C8_combine_dt "2024-01-05" "abc" "x" none (0, 0, 0)).2.2.2.2 (by decide)

theorem mem_dedupKF_id [DecidableEq γ] (l : List γ) (c : γ) :
    c ∈ dedupKF id l ↔ c ∈ l := by
  have := dedupKF_key_mem (id : γ → γ) l c
  rwa [List.map_id, List.map_id] at this

theorem findIdx?_ne_none_of_mem (c : String) :
    ∀ ns : List String, c ∈ ns → ns.findIdx? (fun x => decide (x = c)) ≠ none := by
  intro ns
  induction ns with
  | nil => intro h; simp at h
  | cons n ns ih =>
    intro hc
    rw [List.findIdx?_cons]
    by_cases hnc : n = c
    · simp [hnc]
    · have hd : (decide (n = c)) = false := by simpa using hnc
      have hc' : c ∈ ns := by
        rcases List.mem_cons.mp hc with h | h
        · exact absurd h.symm hnc
        · exact h
      simp only [hd, Bool.false_eq_true, if_false, List.findIdx?_succ]
      cases e : List.findIdx? (fun x => decide (x = c)) ns with
      | none => exact absurd e (ih hc')
      | some j => simp [e]

/-- Selecting column `c` out of the `g`-image of a name list retrieves
`g c`, where `c` is looked up at its first occurrence. -/
theorem getD_map_firstIdx (g : String → String) :
    ∀ (ns : List String) (c : String), c ∈ ns →
      (ns.map g).getD (firstIdx ns c) "" = g c := by
  intro ns
  induction ns with
  | nil => intro c hc; simp at hc
  | cons n ns ih =>
    intro c hc
    by_cases hnc : n = c
    · subst hnc
      rw [firstIdx, List.findIdx?_cons]
      simp
    · have hc' : c ∈ ns := by
        rcases List.mem_cons.mp hc with h | h
        · exact absurd h.symm hnc
        · exact h
      have hd : (decide (n = c)) = false := by simpa using hnc
      rw [firstIdx, List.findIdx?_cons]
      simp only [hd, Bool.false_eq_true, if_false, List.findIdx?_succ]
      cases e : List.findIdx? (fun x => decide (x = c)) ns with
      | none => exact absurd e (findIdx?_ne_none_of_mem c ns hc')
      | some j =>
        show (List.map g (n :: ns)).getD (j + 1) "" = g c
        rw [List.map_cons, List.getD_cons_succ]
        have := ih c hc'
        rw [firstIdx, e] at this
        exact this

/-- Composing two positional-by-name selections: selecting `kept` out of
a selection of `ns` retrieves, for each kept name, the cell at its first
positional occurrence in the original schema. -/
theorem dfSelect_comp (scols : List String) (data : List (List String))
    (ns kept : List String) (hsub : ∀ c ∈ kept, c ∈ ns) :
    dfSelect (dfSelect { cols := scols, rows := data } ns) kept =
      { cols := kept,
        rows := data.map (fun row =>
          kept.map (fun c => row.getD (firstIdx scols c) "")) } := by
  simp only [dfSelect, List.map_map]
  congr 1
  apply List.map_congr_left
  intro row _
  apply List.map_congr_left
  intro c hc
  exact getD_map_firstIdx (fun n => row.getD (firstIdx scols n) "") ns c (hsub c hc)

/-- C7 counterexample: with a duplicate-free schema `["A"]` and request
`["B"]`, the intersection of wanted and present columns is empty and the
physical read is **not** restricted to it — the source falls back to a
full-table read (`none`), contradicting the claim that the physical read
is restricted to the intersection whenever the schema has no
duplicates. -/
theorem claim_C7_counterexample :
    hasDupCols (ParquetFile.mk ["A"] [["x"]]).schemaCols = false ∧
    (["B"] : List String).filter
      (fun c => decide (c ∈ (ParquetFile.mk ["A"] [["x"]]).schemaCols)) = [] ∧
    physReadCols (ParquetFile.mk ["A"] [["x"]]) ["B"] ≠
      some ((["B"] : List String).filter
        (fun c => decide (c ∈ (ParquetFile.mk ["A"] [["x"]]).schemaCols))) ∧
    physReadCols (ParquetFile.mk ["A"] [["x"]]) ["B"] = none := by
  exact ⟨by decide, by decide, by decide, by decide⟩

/-- C7 as amended: when the schema contains duplicate column names, the
reader's physical read selects the first positional occurrence of each
distinct name (dropping later duplicates) and the result is then
restricted to the requested columns that exist — each returned cell is
the one at the first positional occurrence of its column name; when the
schema has no duplicates and at least one requested column is present,
the physical read is restricted to the intersection of wanted and
present columns (in requested order); when the schema has no duplicates
and no requested column is present, the physical read is a full-table
read and the result is the empty table headed by the requested
columns. -/
theorem claim_C7_schema_defensive_read (f : ParquetFile) (columns : List String) :
    (columns.filter (fun c => decide (c ∈ f.schemaCols)) ≠ [] →
      readParquetSubset (some f) columns =
        { cols := columns.filter (fun c => decide (c ∈ f.schemaCols)),
          rows := f.data.map (fun row =>
            (columns.filter (fun c => decide (c ∈ f.schemaCols))).map
              (fun c => row.getD (firstIdx f.schemaCols c) "")) }) ∧
    (hasDupCols f.schemaCols = true →
      physReadCols f columns = some (dedupKF id f.schemaCols)) ∧
    (hasDupCols f.schemaCols = false →
      columns.filter (fun c => decide (c ∈ f.schemaCols)) ≠ [] →
      physReadCols f columns =
        some (columns.filter (fun c => decide (c ∈ f.schemaCols)))) ∧
    (hasDupCols f.schemaCols = false →
      columns.filter (fun c => decide (c ∈ f.schemaCols)) = [] →
      physReadCols f columns = none ∧
      (columns ≠ [] →
        readParquetSubset (some f) columns = { cols := columns, rows := [] })) := by
  refine ⟨?_, ?_, ?_, ?_⟩
  · intro hne
    have hcols : columns ≠ [] := by
      intro h
      rw [h] at hne
      exact hne rfl
    have hcne : columns.isEmpty = false := by
      cases columns with
      | nil => exact absurd rfl hcols
      | cons a l => rfl
    have hkne : (columns.filter (fun c => decide (c ∈ f.schemaCols))).isEmpty = false := by
      cases e : columns.filter (fun c => decide (c ∈ f.schemaCols)) with
      | nil => exact absurd e hne
      | cons a l => rfl
    by_cases hdup : hasDupCols f.schemaCols = true
    · have hphys : physReadCols f columns = some (dedupKF id f.schemaCols) := by
        rw [physReadCols, if_pos hdup]
      have hcols2 : (pfRead f (physReadCols f columns)).cols = dedupKF id f.schemaCols := by
        rw [hphys]
        rfl
      have havail : columns.filter
            (fun c => decide (c ∈ (pfRead f (physReadCols f columns)).cols)) =
          columns.filter (fun c => decide (c ∈ f.schemaCols)) := by
        rw [hcols2]
        apply List.filter_congr
        intro c _
        rw [decide_eq_decide]
        exact mem_dedupKF_id f.schemaCols c
      rw [readParquetSubset]
      simp only [hcne, Bool.false_eq_true, if_false, havail, hkne]
      rw [hphys]
      have hred : pfRead f (some (dedupKF id f.schemaCols)) =
          dfSelect { cols := f.schemaCols, rows := f.data } (dedupKF id f.schemaCols) := rfl
      rw [hred]
      apply dfSelect_comp
      intro c hc
      rw [mem_dedupKF_id]
      have := List.mem_filter.mp hc
      simpa using this.2
    · have hdup' : hasDupCols f.schemaCols = false := by
        cases hh : hasDupCols f.schemaCols with
        | false => rfl
        | true => exact absurd hh hdup
      have hphys : physReadCols f columns =
          some (columns.filter (fun c => decide (c ∈ f.schemaCols))) := by
        rw [physReadCols]
        simp only [hdup', Bool.false_eq_true, if_false, hkne]
      have hcols2 : (pfRead f (physReadCols f columns)).cols =
          columns.filter (fun c => decide (c ∈ f.schemaCols)) := by
        rw [hphys]
        rfl
      have havail : columns.filter
            (fun c => decide (c ∈ (pfRead f (physReadCols f columns)).cols)) =
          columns.filter (fun c => decide (c ∈ f.schemaCols)) := by
        rw [hcols2]
        apply List.filter_congr
        intro c hcmem
        rw [decide_eq_decide]
        constructor
        · intro hck
          simpa using (List.mem_filter.mp hck).2
        · intro hcs
          exact List.mem_filter.mpr ⟨hcmem, by simpa using hcs⟩
      rw [readParquetSubset]
      simp only [hcne, Bool.false_eq_true, if_false, havail, hkne]
      rw [hphys]
      have hred : pfRead f (some (columns.filter (fun c => decide (c ∈ f.schemaCols)))) =
          dfSelect { cols := f.schemaCols, rows := f.data }
            (columns.filter (fun c => decide (c ∈ f.schemaCols))) := rfl
      rw [hred]
      apply dfSelect_comp
      intro c hc
      exact hc
  · intro hdup
    rw [physReadCols, if_pos hdup]
  · intro hdup hne
    have hkne : (columns.filter (fun c => decide (c ∈ f.schemaCols))).isEmpty = false := by
      cases e : columns.filter (fun c => decide (c ∈ f.schemaCols)) with
      | nil => exact absurd e hne
      | cons a l => rfl
    rw [physReadCols]
    simp only [hdup, Bool.false_eq_true, if_false, hkne]
  · intro hdup hk
    have hphys : physReadCols f columns = none := by
      rw [physReadCols]
      simp only [hdup, Bool.false_eq_true, if_false, hk, List.isEmpty_nil, if_true]
    refine ⟨hphys, ?_⟩
    intro hcols
    have hcne : columns.isEmpty = false := by
      cases columns with
      | nil => exact absurd rfl hcols
      | cons a l => rfl
    rw [readParquetSubset]
    simp only [hcne, Bool.false_eq_true, if_false]
    rw [hphys]
    have hcols2 : (pfRead f none).cols = f.schemaCols := rfl
    rw [hcols2, hk]
    simp

/-- Witness for C7 at three concrete files: a duplicated schema
(positional first-occurrence read), a clean schema with overlap
(restricted physical read), and a clean schema without overlap (full
read, empty result with requested headers). -/
theorem claim_C7_schema_defensive_read_witness :
    (readParquetSubset (some (ParquetFile.mk ["A", "B", "A"] [["x", "y", "z"]])) ["B", "A"] =
      { cols := (["B", "A"] : List String).filter
          (fun c => decide (c ∈ (ParquetFile.mk ["A", "B", "A"] [["x", "y", "z"]]).schemaCols)),
        rows := (ParquetFile.mk ["A", "B", "A"] [["x", "y", "z"]]).data.map (fun row =>
          ((["B", "A"] : List String).filter
              (fun c => decide (c ∈ (ParquetFile.mk ["A", "B", "A"] [["x", "y", "z"]]).schemaCols))).map
            (fun c =>
              row.getD (firstIdx (ParquetFile.mk ["A", "B", "A"] [["x", "y", "z"]]).schemaCols c) "")) }) ∧
    (physReadCols (ParquetFile.mk ["A", "B"] [["x", "y"]]) ["B"] =
      some ((["B"] : List String).filter
        (fun c => decide (c ∈ (ParquetFile.mk ["A", "B"] [["x", "y"]]).schemaCols)))) ∧
    (physReadCols (ParquetFile.mk ["A"] [["x"]]) ["B"] = none ∧
      (["B"] ≠ ([] : List String) →
        readParquetSubset (some (ParquetFile.mk ["A"] [["x"]])) ["B"] =
          { cols := ["B"], rows := [] })) := by
  refine ⟨?_, ?_, ?_⟩
  · exact (claim_C7_schema_defensive_read (ParquetFile.mk ["A", "B", "A"] [["x", "y", "z"]])
      ["B", "A"]).1 (by decide)
  · exact (claim_C7_schema_defensive_read (ParquetFile.mk ["A", "B"] [["x", "y"]])
      ["B"]).2.2.1 (by decide) (by decide)
  · exact (claim_C7_schema_defensive_read (ParquetFile.mk ["A"] [["x"]])
      ["B"]).2.2.2 (by decide) (by decide)

theorem listLe_pair (x y : Int) : listLe [0, x] [0, y] = true ↔ x ≤ y := by
  simp only [listLe, lt_irrefl, if_false]
  by_cases h1 : x < y
  · simp only [h1, if_true]
    constructor
    · intro _; exact le_of_lt h1
    · intro _; trivial
  · by_cases h2 : y < x
    · simp only [h1, h2, if_false, if_true]
      constructor
      · intro h; exact absurd h (by simp)
      · intro h; omega
    · simp only [h1, h2, if_false]
      constructor
      · intro _; omega
      · intro _; trivial

/-- A joined current-step row with every field null. -/
def noneJRow : JRow :=
  { RunId := none, ProcessModuleId := none, Sequence := none, batchIdx := none
    fragIdx := none, started_at := none, finished_at := none, status := none
    updated_at := none, Id_pm := none, ProcessId := none, ModuleId := none
    ProcessName := none, CategoryId := none, CategoryName := none, TypeId := none
    ProcessTypeId := none, ProcessTypeName := none, Label := none, RunName := none
    Motivation := none, Status := none, MotivationText := none }

/-- C9 counterexample: a missing batch name is projected as
`"Unknown"`, not as the empty string claimed. -/
theorem claim_C9_counterexample :
    noneJRow.RunName = none ∧ (projectRecord noneJRow).batch_name ≠ "" ∧
    (projectRecord noneJRow).batch_name = "Unknown" := by
  exact ⟨rfl, by decide, rfl⟩

/-- C9 as amended: in every output record each missing field value is
normalized to the empty string — batch number, batch status, motivation,
process name, category name, process-type name, started-at and
finished-at — except that a missing batch name and a missing step status
are normalized to `"Unknown"`, and a missing batch identifier to `0`;
and the list of records is sorted by `RunId` in descending order. -/
theorem claim_C9_projection (r : JRow) (sch : RSSchema) (runT : List RunRow)
    (rsT : List RSRow) (pmT : List PMRow) (procT : List ProcRow) (catT : List CatRow)
    (ptcT : List PtcRow) (ptypeT : List PtypeRow) :
    (r.RunId = none → (projectRecord r).batch_id = 0) ∧
    (r.Label = none → (projectRecord r).batch_number = "") ∧
    (r.RunName = none → (projectRecord r).batch_name = "Unknown") ∧
    (r.Status = none → (projectRecord r).batch_status = "") ∧
    (r.MotivationText = none → (projectRecord r).motivation = "") ∧
    (r.ProcessName = none → (projectRecord r).process_name = "") ∧
    (r.CategoryName = none → (projectRecord r).category_name = "") ∧
    (r.ProcessTypeName = none → (projectRecord r).process_type_name = "") ∧
    (r.status = none → (projectRecord r).process_status = "Unknown") ∧
    (r.started_at = none → (projectRecord r).started_at = "") ∧
    (r.finished_at = none → (projectRecord r).finished_at = "") ∧
    (pipelineRecords sch runT rsT pmT procT catT ptcT ptypeT).Pairwise
      (fun a b => b.batch_id ≤ a.batch_id) := by
  refine ⟨?_, ?_, ?_, ?_, ?_, ?_, ?_, ?_, ?_, ?_, ?_, ?_⟩
  · intro h; simp [projectRecord, h]
  · intro h; simp [projectRecord, h]
  · intro h; simp [projectRecord, h]
  · intro h; simp [projectRecord, h]
  · intro h; simp [projectRecord, h]
  · intro h; simp [projectRecord, h]
  · intro h; simp [projectRecord, h]
  · intro h; simp [projectRecord, h]
  · intro h; simp [projectRecord, h]
  · intro h; simp [projectRecord, h]
  · intro h; simp [projectRecord, h]
  · rw [pipelineRecords, List.pairwise_map]
    apply List.Pairwise.imp_of_mem ?_ (sortK_pairwise descRunKey _)
    intro a b ha hb hle
    obtain ⟨va, hva⟩ := joined_runId_isSome sch runT rsT pmT procT catT ptcT ptypeT a
      ((sortK_perm descRunKey _).mem_iff.mp ha)
    obtain ⟨vb, hvb⟩ := joined_runId_isSome sch runT rsT pmT procT catT ptcT ptypeT b
      ((sortK_perm descRunKey _).mem_iff.mp hb)
    simp only [descRunKey, hva, hvb] at hle
    have hba : vb ≤ va := by
      have := (listLe_pair (-va) (-vb)).mp hle
      omega
    simp [projectRecord, hva, hvb, hba]

/-- Witness for C9: the all-null joined row exercises every default, and
a concrete pipeline instance exercises the descending sort. -/
theorem claim_C9_projection_witness :
    ((projectRecord noneJRow).batch_id = 0) ∧
    ((projectRecord noneJRow).batch_number = "") ∧
    ((projectRecord noneJRow).batch_name = "Unknown") ∧
    ((projectRecord noneJRow).batch_status = "") ∧
    ((projectRecord noneJRow).motivation = "") ∧
    ((projectRecord noneJRow).process_name = "") ∧
    ((projectRecord noneJRow).category_name = "") ∧
    ((projectRecord noneJRow).process_type_name = "") ∧
    ((projectRecord noneJRow).process_status = "Unknown") ∧
    ((projectRecord noneJRow).started_at = "") ∧
    ((projectRecord noneJRow).finished_at = "") ∧
    (pipelineRecords (RSSchema.mk false false false false false) [] [] [] [] [] [] []).Pairwise
      (fun a b => b.batch_id ≤ a.batch_id) := by
  have H := claim_C9_projection noneJRow (RSSchema.mk false false false false false)
    [] [] [] [] [] [] []
  exact ⟨H.1 rfl, H.2.1 rfl, H.2.2.1 rfl, H.2.2.2.1 rfl, H.2.2.2.2.1 rfl,
    H.2.2.2.2.2.1 rfl, H.2.2.2.2.2.2.1 rfl, H.2.2.2.2.2.2.2.1 rfl,
    H.2.2.2.2.2.2.2.2.1 rfl, H.2.2.2.2.2.2.2.2.2.1 rfl,
    H.2.2.2.2.2.2.2.2.2.2.1 rfl, H.2.2.2.2.2.2.2.2.2.2.2⟩

theorem pickCurrent_rule1 (sch : RSSchema) (g : List StepRow)
    (h1 : g.any (fun r => r.updated_at.isSome) = true) :
    pickCurrent sch g = argmaxFirst (fun r => r.updated_at) g := by
  rw [pickCurrent, if_pos h1]

theorem pickCurrent_rule2 (sch : RSSchema) (g : List StepRow)
    (h1 : g.any (fun r => r.updated_at.isSome) = false)
    (h2 : (sch.hasBatchIdx || sch.hasFragIdx) = true) :
    pickCurrent sch g = (sortK (ordKey sch) g).getLast? := by
  rw [pickCurrent, if_neg (by simp [h1]), if_pos h2]

theorem pickCurrent_rule3 (sch : RSSchema) (g : List StepRow)
    (h1 : g.any (fun r => r.updated_at.isSome) = false)
    (h2 : (sch.hasBatchIdx || sch.hasFragIdx) = false)
    (h3 : (sch.hasSeq && g.any (fun r => r.Sequence.isSome)) = true) :
    pickCurrent sch g = argmaxFirst (fun r => r.Sequence) g := by
  rw [pickCurrent, if_neg (by simp [h1]), if_neg (by simp [h2]), if_pos h3]

theorem pickCurrent_rule4 (sch : RSSchema) (g : List StepRow)
    (h1 : g.any (fun r => r.updated_at.isSome) = false)
    (h2 : (sch.hasBatchIdx || sch.hasFragIdx) = false)
    (h3 : (sch.hasSeq && g.any (fun r => r.Sequence.isSome)) = false) :
    pickCurrent sch g = g.getLast? := by
  rw [pickCurrent, if_neg (by simp [h1]), if_neg (by simp [h2]), if_neg (by simp [h3])]

theorem countP_eq_one_of_nodup_mem [DecidableEq γ] :
    ∀ (l : List γ) (k : γ), l.Nodup → k ∈ l →
      l.countP (fun x => decide (x = k)) = 1 := by
  intro l
  induction l with
  | nil => intro k _ hmem; simp at hmem
  | cons a l ih =>
    intro k hnd hmem
    rw [List.nodup_cons] at hnd
    by_cases hak : a = k
    · rw [List.countP_cons]
      have hz : l.countP (fun x => decide (x = k)) = 0 := by
        rw [List.countP_eq_zero]
        intro b hb
        simp only [decide_eq_true_eq]
        intro hbk
        exact hnd.1 (by rw [hak, ← hbk]; exact hb)
      simp [hz, hak]
    · rw [List.countP_cons]
      have hmem' : k ∈ l := by
        rcases List.mem_cons.mp hmem with h | h
        · exact absurd h.symm hak
        · exact h
      simp [ih k hnd.2 hmem', hak]

/-- Exactly one selected row per distinct non-null `RunId`. -/
theorem currentStep_count_one (sch : RSSchema) (rows : List StepRow) (k : Int)
    (hk : k ∈ rows.filterMap (fun r => r.RunId)) :
    (currentStep sch rows).countP (fun r => decide (r.RunId = some k)) = 1 := by
  have hmap := currentStep_runIds sch rows
  have h1 : (currentStep sch rows).countP (fun r => decide (r.RunId = some k)) =
      ((currentStep sch rows).map (fun r => r.RunId)).countP
        (fun o => decide (o = some k)) := by
    rw [List.countP_map]
    rfl
  rw [h1, hmap, List.countP_map]
  have h2 : ((fun o => decide (o = some k)) ∘ some) = (fun x : Int => decide (x = k)) := by
    funext x
    simp
  rw [h2]
  exact countP_eq_one_of_nodup_mem _ k (runKeys_nodup rows) ((runKeys_mem rows k).mpr hk)

/-- C1: current-step selection per `RunId` follows the tie-break ladder
in order, first applicable rule wins, and always yields exactly one
selected row per run without erroring: (1) when some row of the run has
a non-null `updated_at`, the selected row is one with the maximum
`updated_at`; (2) else, when the batch/fragment ingestion-ordinal
columns are carried, the selected row is the last row of the stable
ascending sort by those ordinals, which is maximal for the ordinal sort
key (nulls ordered last); (3) else, when a `Sequence` column is carried
and at least one value is non-null, the selected row is one with the
maximum `Sequence`; (4) else the last row in the table's pre-existing
order is selected. -/
theorem claim_C1_current_step_ladder (sch : RSSchema) (g rows : List StepRow) (k : Int)
    (hg : g ≠ []) (hk : k ∈ rows.filterMap (fun r => r.RunId)) :
    ((currentStep sch rows).countP (fun r => decide (r.RunId = some k)) = 1) ∧
    (∃ r, pickCurrent sch g = some r ∧ r ∈ g) ∧
    (g.any (fun r => r.updated_at.isSome) = true →
      ∃ r m, pickCurrent sch g = some r ∧ r ∈ g ∧ r.updated_at = some m ∧
        ∀ r' ∈ g, ∀ v, r'.updated_at = some v → v ≤ m) ∧
    (g.any (fun r => r.updated_at.isSome) = false →
      (sch.hasBatchIdx || sch.hasFragIdx) = true →
      ∃ r, pickCurrent sch g = some r ∧ (sortK (ordKey sch) g).getLast? = some r ∧
        r ∈ g ∧ ∀ r' ∈ g, listLe (ordKey sch r') (ordKey sch r) = true) ∧
    (g.any (fun r => r.updated_at.isSome) = false →
      (sch.hasBatchIdx || sch.hasFragIdx) = false →
      (sch.hasSeq && g.any (fun r => r.Sequence.isSome)) = true →
      ∃ r m, pickCurrent sch g = some r ∧ r ∈ g ∧ r.Sequence = some m ∧
        ∀ r' ∈ g, ∀ v, r'.Sequence = some v → v ≤ m) ∧
    (g.any (fun r => r.updated_at.isSome) = false →
      (sch.hasBatchIdx || sch.hasFragIdx) = false →
      (sch.hasSeq && g.any (fun r => r.Sequence.isSome)) = false →
      pickCurrent sch g = g.getLast?) := by
  refine ⟨currentStep_count_one sch rows k hk, pickCurrent_isSome_mem sch g hg,
    ?_, ?_, ?_, ?_⟩
  · intro h1
    rcases argmaxFirst_spec (fun r => r.updated_at) g h1
      with ⟨r, m, l₁, l₂, hpick, heq, hfm, hub, _⟩
    refine ⟨r, m, ?_, ?_, hfm, hub⟩
    · rw [pickCurrent_rule1 sch g h1]
      exact hpick
    · rw [heq]
      exact List.mem_append_right _ (List.mem_cons_self _ _)
  · intro h1 h2
    rcases sortK_getLast?_max (ordKey sch) g hg with ⟨r, hlast, hmem, hmax⟩
    exact ⟨r, by rw [pickCurrent_rule2 sch g h1 h2]; exact hlast, hlast, hmem, hmax⟩
  · intro h1 h2 h3
    have h3' : g.any (fun r => r.Sequence.isSome) = true :=
      ((Bool.and_eq_true _ _) ▸ h3).2
    rcases argmaxFirst_spec (fun r => r.Sequence) g h3'
      with ⟨r, m, l₁, l₂, hpick, heq, hfm, hub, _⟩
    refine ⟨r, m, ?_, ?_, hfm, hub⟩
    · rw [pickCurrent_rule3 sch g h1 h2 h3]
      exact hpick
    · rw [heq]
      exact List.mem_append_right _ (List.mem_cons_self _ _)
  · intro h1 h2 h3
    exact pickCurrent_rule4 sch g h1 h2 h3

/-- Witness for C1 at a concrete schema and group: two steps of run 1,
no timestamps, `Sequence` carried with values 1 and 2 (rule 3). -/
theorem claim_C1_current_step_ladder_witness :
    (([StepRow.mk (some 1) (some 10) (some 1) none none none none (some "Not Started") none,
        StepRow.mk (some 1) (some 11) (some 2) none none none none (some "Not Started") none]
        : List StepRow) ≠ []) ∧
    ((1 : Int) ∈ ([StepRow.mk (some 1) (some 10) (some 1) none none none none
        (some "Not Started") none,
      StepRow.mk (some 1) (some 11) (some 2) none none none none (some "Not Started") none]
        : List StepRow).filterMap (fun r => r.RunId)) ∧
    ((currentStep (RSSchema.mk false false true false false)
        [StepRow.mk (some 1) (some 10) (some 1) none none none none (some "Not Started") none,
          StepRow.mk (some 1) (some 11) (some 2) none none none none (some "Not Started") none]).countP
      (fun r => decide (r.RunId = some 1)) = 1) ∧
    (∃ r, pickCurrent (RSSchema.mk false false true false false)
        [StepRow.mk (some 1) (some 10) (some 1) none none none none (some "Not Started") none,
          StepRow.mk (some 1) (some 11) (some 2) none none none none (some "Not Started") none]
        = some r ∧
      r ∈ [StepRow.mk (some 1) (some 10) (some 1) none none none none (some "Not Started") none,
        StepRow.mk (some 1) (some 11) (some 2) none none none none (some "Not Started") none]) := by
  have H := claim_C1_current_step_ladder (RSSchema.mk false false true false false)
    [StepRow.mk (some 1) (some 10) (some 1) none none none none (some "Not Started") none,
      StepRow.mk (some 1) (some 11) (some 2) none none none none (some "Not Started") none]
    [StepRow.mk (some 1) (some 10) (some 1) none none none none (some "Not Started") none,
      StepRow.mk (some 1) (some 11) (some 2) none none none none (some "Not Started") none]
    1 (by decide) (by decide)
  exact ⟨by decide, by decide, H.1, H.2.1⟩

/-- C10: within the current-step ladder, ties are broken by row
position — when several rows of a run share the maximal `updated_at`
(rule 1) or the maximal `Sequence` (rule 3), the first such row in the
group's current row order is selected. -/
theorem claim_C10_tie_first_position (sch : RSSchema) (g : List StepRow) :
    (g.any (fun r => r.updated_at.isSome) = true →
      ∃ r m l₁ l₂, pickCurrent sch g = some r ∧ g = l₁ ++ r :: l₂ ∧
        r.updated_at = some m ∧
        (∀ r' ∈ g, ∀ v, r'.updated_at = some v → v ≤ m) ∧
        (∀ x ∈ l₁, x.updated_at ≠ some m)) ∧
    (g.any (fun r => r.updated_at.isSome) = false →
      (sch.hasBatchIdx || sch.hasFragIdx) = false →
      (sch.hasSeq && g.any (fun r => r.Sequence.isSome)) = true →
      ∃ r m l₁ l₂, pickCurrent sch g = some r ∧ g = l₁ ++ r :: l₂ ∧
        r.Sequence = some m ∧
        (∀ r' ∈ g, ∀ v, r'.Sequence = some v → v ≤ m) ∧
        (∀ x ∈ l₁, x.Sequence ≠ some m)) := by
  constructor
  · intro h1
    rcases argmaxFirst_spec (fun r => r.updated_at) g h1
      with ⟨r, m, l₁, l₂, hpick, heq, hfm, hub, hfirst⟩
    exact ⟨r, m, l₁, l₂, by rw [pickCurrent_rule1 sch g h1]; exact hpick,
      heq, hfm, hub, hfirst⟩
  · intro h1 h2 h3
    have h3' : g.any (fun r => r.Sequence.isSome) = true :=
      ((Bool.and_eq_true _ _) ▸ h3).2
    rcases argmaxFirst_spec (fun r => r.Sequence) g h3'
      with ⟨r, m, l₁, l₂, hpick, heq, hfm, hub, hfirst⟩
    exact ⟨r, m, l₁, l₂, by rw [pickCurrent_rule3 sch g h1 h2 h3]; exact hpick,
      heq, hfm, hub, hfirst⟩

/-- Witness for C10: two steps sharing the maximal `updated_at`; the
selected row is the first of the two in row order. -/
theorem claim_C10_tie_first_position_witness :
    (([StepRow.mk (some 1) (some 10) none none none (some 5) (some 7) (some "Completed") (some 7),
        StepRow.mk (some 1) (some 11) none none none (some 5) (some 7) (some "Completed") (some 7)]
        : List StepRow).any (fun r => r.updated_at.isSome) = true) ∧
    (∃ r m l₁ l₂,
      pickCurrent (RSSchema.mk true true false false false)
        [StepRow.mk (some 1) (some 10) none none none (some 5) (some 7) (some "Completed") (some 7),
          StepRow.mk (some 1) (some 11) none none none (some 5) (some 7) (some "Completed") (some 7)]
        = some r ∧
      ([StepRow.mk (some 1) (some 10) none none none (some 5) (some 7) (some "Completed") (some 7),
        StepRow.mk (some 1) (some 11) none none none (some 5) (some 7) (some "Completed") (some 7)]
        : List StepRow) = l₁ ++ r :: l₂ ∧
      r.updated_at = some m ∧
      (∀ r' ∈ ([StepRow.mk (some 1) (some 10) none none none (some 5) (some 7) (some "Completed") (some 7),
          StepRow.mk (some 1) (some 11) none none none (some 5) (some 7) (some "Completed") (some 7)]
          : List StepRow), ∀ v, r'.updated_at = some v → v ≤ m) ∧
      (∀ x ∈ l₁, x.updated_at ≠ some m)) := by
  have H := claim_C10_tie_first_position (RSSchema.mk true true false false false)
    [StepRow.mk (some 1) (some 10) none none none (some 5) (some 7) (some "Completed") (some 7),
      StepRow.mk (some 1) (some 11) none none none (some 5) (some 7) (some "Completed") (some 7)]
  exact ⟨by decide, H.1 (by decide)⟩

/-- C2 counterexample: a `process_type_category` table mapping the same
`CategoryId` to two different `TypeId`s makes the `c4` left merge fan
out, so run 1 — present in the run table and carrying one step — appears
in **two** output records, contradicting "exactly one record per
distinct RunId" and "no RunId ever appears in more than one output
record". -/
theorem claim_C2_counterexample :
    (∃ r ∈ ([RunRow.mk (some 1) (some "L") (some "N") none (some "S") none] : List RunRow),
      r.RunId = some 1) ∧
    (∃ s ∈ ([RSRow.mk (some 1) (some 10) none none none none none none none] : List RSRow),
      s.RunId = some 1) ∧
    (pipelineRecords (RSSchema.mk false false false false false)
        [RunRow.mk (some 1) (some "L") (some "N") none (some "S") none]
        [RSRow.mk (some 1) (some 10) none none none none none none none]
        [PMRow.mk (some 10) (some 20) (some 99)]
        [ProcRow.mk (some 20) (some "P") (some 5)]
        [CatRow.mk (some 5) (some "C")]
        [PtcRow.mk (some 1) (some 5), PtcRow.mk (some 2) (some 5)]
        [PtypeRow.mk (some 1) (some "T1"), PtypeRow.mk (some 2) (some "T2")]).countP
      (fun b => decide (b.batch_id = 1)) = 2 := by
  refine ⟨⟨_, List.mem_cons_self _ _, rfl⟩, ⟨_, List.mem_cons_self _ _, rfl⟩, by decide⟩

/-- C2 as amended: provided the (full-row deduplicated)
`process_type_category` table carries at most one row per `CategoryId`,
the final output contains exactly one record per distinct `RunId`
present in the run table that has at least one run_step row; runs with
no run_step rows are absent from the output (not zero-filled); and no
`RunId` appears in more than one output record.  (Without that proviso
the Category→Type bridge join fans out and duplicates a run's record,
as the counterexample shows.) -/
theorem claim_C2_one_record_per_run (sch : RSSchema) (runT : List RunRow)
    (rsT : List RSRow) (pmT : List PMRow) (procT : List ProcRow) (catT : List CatRow)
    (ptcT : List PtcRow) (ptypeT : List PtypeRow)
    (hptc : ((dedupKF id ptcT).map (fun r => r.CategoryId)).Nodup) :
    ((pipelineRecords sch runT rsT pmT procT catT ptcT ptypeT).map
        (fun b => b.batch_id)).Nodup ∧
    ∀ rid : Int,
      ((∃ r ∈ runT, r.RunId = some rid) → (∃ s ∈ rsT, s.RunId = some rid) →
        (pipelineRecords sch runT rsT pmT procT catT ptcT ptypeT).countP
          (fun b => decide (b.batch_id = rid)) = 1) ∧
      ((¬ ∃ s ∈ rsT, s.RunId = some rid) →
        (pipelineRecords sch runT rsT pmT procT catT ptcT ptypeT).countP
          (fun b => decide (b.batch_id = rid)) = 0) := by
  have hmap := joined_map_runIds sch runT rsT pmT procT catT ptcT ptypeT hptc
  constructor
  · rw [pipelineRecords, List.map_map]
    have hfun : ((fun b : BatchRec => b.batch_id) ∘ projectRecord) =
        (fun r : JRow => r.RunId.getD 0) := rfl
    rw [hfun]
    refine ((sortK_perm descRunKey _).map (fun r : JRow => r.RunId.getD 0)).nodup_iff.mpr ?_
    have h1 : (joinedCurrent sch runT rsT pmT procT catT ptcT ptypeT).map
        (fun r => r.RunId.getD 0) =
        ((joinedCurrent sch runT rsT pmT procT catT ptcT ptypeT).map
          (fun r => r.RunId)).map (fun o => o.getD 0) := by
      rw [List.map_map]
      rfl
    rw [h1, hmap, List.map_map]
    have h2 : ((fun o : Option Int => o.getD 0) ∘ some) = (id : Int → Int) := rfl
    rw [h2, List.map_id]
    exact runKeys_nodup _
  · intro rid
    have hcount : (pipelineRecords sch runT rsT pmT procT catT ptcT ptypeT).countP
        (fun b => decide (b.batch_id = rid)) =
        (runKeys (rsT.map (mkStep sch))).countP (fun x => decide (x = rid)) := by
      rw [pipelineRecords, List.countP_map]
      have hfun : ((fun b : BatchRec => decide (b.batch_id = rid)) ∘ projectRecord) =
          (fun r : JRow => decide (r.RunId.getD 0 = rid)) := rfl
      rw [hfun]
      rw [(sortK_perm descRunKey _).countP_eq]
      have h3 : (joinedCurrent sch runT rsT pmT procT catT ptcT ptypeT).countP
          (fun r => decide (r.RunId.getD 0 = rid)) =
          ((joinedCurrent sch runT rsT pmT procT catT ptcT ptypeT).map
            (fun r => r.RunId)).countP (fun o => decide (o.getD 0 = rid)) := by
        rw [List.countP_map]
        rfl
      rw [h3, hmap, List.countP_map]
      rfl
    constructor
    · intro _ hstep
      rw [hcount]
      apply countP_eq_one_of_nodup_mem _ _ (runKeys_nodup _)
      rw [runKeys_mem]
      rcases hstep with ⟨s, hs, hrid⟩
      exact List.mem_filterMap.mpr ⟨mkStep sch s, List.mem_map_of_mem _ hs, hrid⟩
    · intro hnostep
      rw [hcount, List.countP_eq_zero]
      intro x hx
      simp only [decide_eq_true_eq]
      intro hxr
      apply hnostep
      rcases List.mem_filterMap.mp ((runKeys_mem _ x).mp hx) with ⟨s', hs', hsr⟩
      rcases List.mem_map.mp hs' with ⟨s, hs, hmk⟩
      refine ⟨s, hs, ?_⟩
      rw [← hxr]
      rw [← hmk] at hsr
      exact hsr

/-- Witness for C2 on the counterexample's single-run tables with a
duplicate-free bridge table: run 1 (present, with a step) yields exactly
one record, run 2 (no steps) yields none, and the output's identifiers
are duplicate-free. -/
theorem claim_C2_one_record_per_run_witness :
    ((((dedupKF id [PtcRow.mk (some 1) (some 5)]).map (fun r => r.CategoryId)).Nodup) ∧
      (∃ s ∈ ([RSRow.mk (some 1) (some 10) none none none none none none none] : List RSRow),
        s.RunId = some 1) ∧
      ¬ ∃ s ∈ ([RSRow.mk (some 1) (some 10) none none none none none none none] : List RSRow),
        s.RunId = some 2) ∧
    ((pipelineRecords (RSSchema.mk false false false false false)
        [RunRow.mk (some 1) (some "L") (some "N") none (some "S") none]
        [RSRow.mk (some 1) (some 10) none none none none none none none]
        [PMRow.mk (some 10) (some 20) (some 99)]
        [ProcRow.mk (some 20) (some "P") (some 5)]
        [CatRow.mk (some 5) (some "C")]
        [PtcRow.mk (some 1) (some 5)]
        [PtypeRow.mk (some 1) (some "T1")]).map (fun b => b.batch_id)).Nodup ∧
    ((pipelineRecords (RSSchema.mk false false false false false)
        [RunRow.mk (some 1) (some "L") (some "N") none (some "S") none]
        [RSRow.mk (some 1) (some 10) none none none none none none none]
        [PMRow.mk (some 10) (some 20) (some 99)]
        [ProcRow.mk (some 20) (some "P") (some 5)]
        [CatRow.mk (some 5) (some "C")]
        [PtcRow.mk (some 1) (some 5)]
        [PtypeRow.mk (some 1) (some "T1")]).countP
      (fun b => decide (b.batch_id = 1)) = 1) ∧
    ((pipelineRecords (RSSchema.mk false false false false false)
        [RunRow.mk (some 1) (some "L") (some "N") none (some "S") none]
        [RSRow.mk (some 1) (some 10) none none none none none none none]
        [PMRow.mk (some 10) (some 20) (some 99)]
        [ProcRow.mk (some 20) (some "P") (some 5)]
        [CatRow.mk (some 5) (some "C")]
        [PtcRow.mk (some 1) (some 5)]
        [PtypeRow.mk (some 1) (some "T1")]).countP
      (fun b => decide (b.batch_id = 2)) = 0) := by
  have H := claim_C2_one_record_per_run (RSSchema.mk false false false false false)
    [RunRow.mk (some 1) (some "L") (some "N") none (some "S") none]
    [RSRow.mk (some 1) (some 10) none none none none none none none]
    [PMRow.mk (some 10) (some 20) (some 99)]
    [ProcRow.mk (some 20) (some "P") (some 5)]
    [CatRow.mk (some 5) (some "C")]
    [PtcRow.mk (some 1) (some 5)]
    [PtypeRow.mk (some 1) (some "T1")]
    (by decide)
  refine ⟨⟨by decide, ⟨_, List.mem_cons_self _ _, rfl⟩, by decide⟩, H.1, ?_, ?_⟩
  · exact (H.2 1).1 ⟨_, List.mem_cons_self _ _, rfl⟩ ⟨_, List.mem_cons_self _ _, rfl⟩
  · exact (H.2 2).2 (by decide)

end BatchCore
